import Mathlib

set_option maxRecDepth 8000

/-!
Verification development for the ngbigcache repository.

The cache-shard operations (`CacheShard.get`, `CacheShard.set`, `CacheShard.del`,
`CacheShard.evictDel`, `CacheShard.removeOldestEntry`) are shallow embeddings of
the corresponding methods of `cacheShard` in the bigcache package.  The helpers
they call (the `queue.BytesQueue` ring buffer, the entry codec and the
`ttlManager` registrations) are not part of the provided sources; they are
modelled from the specification, as marked on each definition.  The cluster
remote-node functions (`RemoteNode.queueInboundMessage`,
`RemoteNode.handleVerifyOKWaiter`, `RemoteNode.getData`) are shallow embeddings
of the corresponding methods in `Cluster/remoteNode.go`.

Modelling conventions: machine integers are `Nat` with explicit `% 2 ^ w`
where the source relies on wrap-around (`uint64` expiry timestamps and hashes,
`uint32` queue indices); Go byte slices are `List Nat`; Go string keys are their
byte lists; the shard clock is passed as an explicit `now` argument; the
`onRemove` callback is modelled as an event log (`removedLog`); mutexes are not
modelled (every shard operation is a single atomic step of the embedding).
-/

/-- Little-endian encoding of `n` as exactly `k` bytes, least significant
byte first.  This is the byte layout used by the entry codec (spec section 3:
all header fields little-endian). -/
def toLE : Nat → Nat → List Nat
  | 0, _ => []
  | k + 1, n => n % 256 :: toLE k (n / 256)

/-- Little-endian decoding of a byte list (inverse of `toLE`). -/
def leNat (bs : List Nat) : Nat := bs.foldr (fun b acc => b + 256 * acc) 0

/-- Modelled from the spec: `wrapEntry` of the missing entry codec.  Spec
section 3 gives the on-arena layout of a wrapped entry:
bytes [0,8) expiry epoch seconds (u64 LE), bytes [8,16) key hash (u64 LE),
bytes [16,18) key length (u16 LE), then the key bytes, then the value bytes. -/
def wrapEntry (expiry hash : Nat) (key value : List Nat) : List Nat :=
  toLE 8 expiry ++ toLE 8 hash ++ toLE 2 key.length ++ key ++ value

/-- Modelled from the spec: `readTimestampFromEntry` of the missing entry
codec; reads the u64 expiry field at offset 0 of a wrapped entry. -/
def readTimestampFromEntry (e : List Nat) : Nat := leNat (e.take 8)

/-- Modelled from the spec: `readHashFromEntry` of the missing entry codec;
reads the u64 key-hash field at offset 8 of a wrapped entry. -/
def readHashFromEntry (e : List Nat) : Nat := leNat ((e.drop 8).take 8)

/-- Modelled from the spec: the u16 key-length field at offset 16 of a
wrapped entry. -/
def readKeyLenFromEntry (e : List Nat) : Nat := leNat ((e.drop 16).take 2)

/-- Modelled from the spec: `readKeyFromEntry` of the missing entry codec;
the key bytes start at offset 18 and run for the stored key length. -/
def readKeyFromEntry (e : List Nat) : List Nat :=
  (e.drop 18).take (readKeyLenFromEntry e)

/-- Modelled from the spec: `readEntry` of the missing entry codec; the value
bytes follow the key bytes. -/
def readEntry (e : List Nat) : List Nat := e.drop (18 + readKeyLenFromEntry e)

/-- Modelled from the spec: zeroing of the u16 key-length field of a wrapped
entry, the effect of `resetKeyFromEntry` (and part of `BytesQueue.Delete`,
spec section 4.1). -/
def resetKeyData (e : List Nat) : List Nat := e.take 16 ++ [0, 0] ++ e.drop 18

/-- Error taxonomy of the shard layer (spec section 4.2) together with the
errors of the modelled `BytesQueue` (spec sections 4.1 and 7). -/
inductive ShardError where
  | notFound
  | invalidIndex
  | entryDead
  | emptyQueue
  | queueFull
deriving DecidableEq, Repr

/-- One stored blob of the modelled `BytesQueue`: its 1-based byte index (the
value `Push` returned for it), its payload bytes, and whether it is still live
(`alive = false` once its header has been tombstoned by `Delete`). -/
structure QSlot where
  index : Nat
  data : List Nat
  alive : Bool
deriving DecidableEq, Repr

/-- Modelled from the spec: the missing `queue.BytesQueue`.  Spec section 4.1
describes a byte arena with 4-byte length headers, 1-based byte indices
(0 reserved as absent), tombstoning deletes, and geometric growth capped at
`maxCapacity`.  The model keeps each stored blob as an indexed slot rather
than raw arena bytes: `tail` is the next free byte offset, indices returned by
`Push` are `tail + 1` exactly as in the spec, and each push consumes
`4 + payload` bytes.  Space reclamation at the head after `Pop` is abstracted
away (the model never reuses byte offsets), which only makes the model's
`Push` fail in some states where the real queue would still have room; every
theorem below either assumes a successful push or exhibits a failure that the
real arena arithmetic also produces. -/
structure BytesQueue where
  slots : List QSlot
  tail : Nat
  capacity : Nat
  maxCapacity : Nat
deriving DecidableEq, Repr

/-- Modelled from the spec: geometric capacity growth, doubling up to
`maxCap` until `target` fits (spec section 4.1: capacity grows geometrically
by 2 up to `maxCapacity`).  `fuel` bounds the number of doublings. -/
def growUntil (maxCap target : Nat) : Nat → Nat → Nat
  | 0, cap => cap
  | fuel + 1, cap =>
    if target ≤ cap then cap
    else if maxCap ≤ cap then cap
    else growUntil maxCap target fuel (min (2 * cap) maxCap)

/-- Modelled from the spec: `BytesQueue.Push` (spec section 4.1).  Writes a
4-byte length header plus the payload at `tail` and returns the 1-based byte
index of the header; grows geometrically up to `maxCapacity` and otherwise
fails with the typed `QueueFull` error. -/
def BytesQueue.Push (q : BytesQueue) (payload : List Nat) :
    Except ShardError (Nat × BytesQueue) :=
  let newTail := q.tail + (4 + payload.length)
  if newTail ≤ q.capacity then
    .ok (q.tail + 1,
      { q with slots := q.slots ++ [⟨q.tail + 1, payload, true⟩], tail := newTail })
  else
    let newCap := growUntil q.maxCapacity newTail newTail q.capacity
    if newTail ≤ newCap then
      .ok (q.tail + 1,
        { q with slots := q.slots ++ [⟨q.tail + 1, payload, true⟩], tail := newTail,
                 capacity := newCap })
    else .error .queueFull

/-- Modelled from the spec: `BytesQueue.Get` (spec section 4.1).  Looks up the
blob whose header sits at 1-based byte index `index`; fails if no blob was
written there or if its header has been tombstoned. -/
def BytesQueue.Get (q : BytesQueue) (index : Nat) : Except ShardError (List Nat) :=
  match q.slots.find? (fun sl => sl.index == index) with
  | none => .error .invalidIndex
  | some sl => if sl.alive then .ok sl.data else .error .entryDead

/-- Modelled from the spec: `BytesQueue.Delete` (spec section 4.1).  Overwrites
the length header at `index` with the tombstone marker and zeros the key-length
field of the stored wrapper; the space is not reclaimed. -/
def BytesQueue.Delete (q : BytesQueue) (index : Nat) : BytesQueue :=
  { q with slots := q.slots.map (fun sl =>
      if sl.index == index then { sl with alive := false, data := resetKeyData sl.data }
      else sl) }

/-- Modelled from the spec: the in-place effect of `resetKeyFromEntry` on an
entry returned by `Get` (the returned slice aliases the arena, so zeroing the
key-length field mutates the stored blob). -/
def BytesQueue.resetKey (q : BytesQueue) (index : Nat) : BytesQueue :=
  { q with slots := q.slots.map (fun sl =>
      if sl.index == index then { sl with data := resetKeyData sl.data } else sl) }

/-- Modelled from the spec: `BytesQueue.Pop` (spec section 4.1).  Skips
tombstoned blobs, removes the oldest live blob and returns its payload; fails
on an empty queue. -/
def BytesQueue.Pop (q : BytesQueue) : Except ShardError (List Nat × BytesQueue) :=
  match q.slots.dropWhile (fun sl => !sl.alive) with
  | [] => .error .emptyQueue
  | sl :: rest => .ok (sl.data, { q with slots := rest })

/-- NO_EXPIRY means data placed into a shard will never expire
(source: bigcache package, `const NO_EXPIRY uint64 = 0`). -/
def NO_EXPIRY : Nat := 0

/-- Shard statistics counters (source `Stats`, plus `EvictCount` which
`evictDel` increments). -/
structure Stats where
  hits : Nat
  misses : Nat
  delHits : Nat
  delMisses : Nat
  collisions : Nat
  evictCount : Nat
deriving DecidableEq, Repr

/-- The empty statistics record. -/
def Stats.zero : Stats := ⟨0, 0, 0, 0, 0, 0⟩

/-- Go-map lookup on the association-list model of `map[uint64]uint32`:
a missing key reads as the zero value 0, exactly as in Go. -/
def lookup (m : List (Nat × Nat)) (h : Nat) : Nat :=
  match m.find? (fun p => p.1 == h) with
  | some p => p.2
  | none => 0

/-- Go-map assignment `m[h] = v` on the association-list model. -/
def insertMap (h v : Nat) (m : List (Nat × Nat)) : List (Nat × Nat) :=
  (h, v) :: m.filter (fun p => p.1 != h)

/-- Go-map `delete(m, h)` on the association-list model. -/
def eraseMap (h : Nat) (m : List (Nat × Nat)) : List (Nat × Nat) :=
  m.filter (fun p => p.1 != h)

/-- Modelled from the spec: the `ttlManager` registration state (spec section
4.3 keeps `cohorts : map expiry-second to set of keys`), flattened to the set
of registered (expiry, key) pairs.  Only the `put`/`remove` bookkeeping the
shard performs is modelled; the timer is not. -/
def ttlPut (ts : Nat) (k : List Nat) (t : List (Nat × List Nat)) :
    List (Nat × List Nat) :=
  if (ts, k) ∈ t then t else (ts, k) :: t

/-- Modelled from the spec: `ttlManager.remove` erases the key from the
cohort of the given expiry second. -/
def ttlRemove (ts : Nat) (k : List Nat) (t : List (Nat × List Nat)) :
    List (Nat × List Nat) :=
  t.filter (fun e => e != (ts, k))

/-- The cache shard (source `cacheShard`).  `removedLog` records the wrapped
entries passed to the `onRemove` callback, in call order; `hasher` is the
injected `ShardHasher` the source uses in `evictDel`.  The logger, verbosity
flag, clock, `lifeWindow` and the scratch `entryBuffer` are omitted: none of
them affect the operations under verification (the clock is the explicit
`now` argument of `set`). -/
structure CacheShard where
  hashmap : List (Nat × Nat)
  entries : BytesQueue
  removedLog : List (List Nat)
  stats : Stats
  ttlTable : List (Nat × List Nat)
  hasher : List Nat → Nat

/-- Source `cacheShard.hit`. -/
def CacheShard.hit (s : CacheShard) : CacheShard :=
  { s with stats := { s.stats with hits := s.stats.hits + 1 } }

/-- Source `cacheShard.miss`. -/
def CacheShard.miss (s : CacheShard) : CacheShard :=
  { s with stats := { s.stats with misses := s.stats.misses + 1 } }

/-- Source `cacheShard.delhit`. -/
def CacheShard.delhit (s : CacheShard) : CacheShard :=
  { s with stats := { s.stats with delHits := s.stats.delHits + 1 } }

/-- Source `cacheShard.delmiss`. -/
def CacheShard.delmiss (s : CacheShard) : CacheShard :=
  { s with stats := { s.stats with delMisses := s.stats.delMisses + 1 } }

/-- Source `cacheShard.collision`. -/
def CacheShard.collision (s : CacheShard) : CacheShard :=
  { s with stats := { s.stats with collisions := s.stats.collisions + 1 } }

/-- Source `s.stats.EvictCount++` at the top of the `evictDel` loop body. -/
def CacheShard.evictCountUp (s : CacheShard) : CacheShard :=
  { s with stats := { s.stats with evictCount := s.stats.evictCount + 1 } }

/-- Source `cacheShard.get`: look up the index for the hash (0 means absent,
a miss); read the wrapped entry from the queue (errors are misses); compare
the stored key bytes against the requested key (mismatch records a collision
and returns not-found); otherwise record a hit and return the value bytes. -/
def CacheShard.get (s : CacheShard) (key : List Nat) (hashedKey : Nat) :
    CacheShard × Except ShardError (List Nat) :=
  let itemIndex := lookup s.hashmap hashedKey
  if itemIndex = 0 then (s.miss, .error .notFound)
  else
    match s.entries.Get itemIndex with
    | .error e => (s.miss, .error e)
    | .ok wrappedEntry =>
      if readKeyFromEntry wrappedEntry ≠ key then (s.collision, .error .notFound)
      else (s.hit, .ok (readEntry wrappedEntry))

/-- The expiry computation at the top of `cacheShard.set`:
`expiryTimestamp := uint64(s.clock.epoch())`, then add
`uint64(duration.Seconds())` unless the duration equals `NO_EXPIRY`, in which
case the timestamp is forced to `NO_EXPIRY`.  `durationNs` is the
`time.Duration` in nanoseconds; `now` is the epoch clock in seconds. -/
def mkExpiry (durationNs now : Nat) : Nat :=
  if durationNs ≠ NO_EXPIRY then (now + durationNs / 1000000000) % 2 ^ 64
  else NO_EXPIRY

/-- The previous-entry removal phase of `cacheShard.set`: if the hashmap holds
an index for this hash and the queue can still read it, forget its timestamp
from the TTL table, zero its key-length field and tombstone its queue slot.
(The hashmap itself is not updated here; the success path overwrites it.) -/
def CacheShard.setRemovePrev (s : CacheShard) (key : List Nat) (hashedKey : Nat) :
    CacheShard :=
  let previousIndex := lookup s.hashmap hashedKey
  if previousIndex ≠ 0 then
    match s.entries.Get previousIndex with
    | .ok previousEntry =>
      let timestamp := readTimestampFromEntry previousEntry
      { s with ttlTable := ttlRemove timestamp key s.ttlTable,
               entries := (s.entries.resetKey previousIndex).Delete previousIndex }
    | .error _ => s
  else s

/-- Source `cacheShard.set`: compute the expiry timestamp, remove the previous
entry for this hash, wrap the new entry and push it.  On a successful push the
hashmap records `uint32(index)` and, for a finite duration, the key is
registered with the TTL table (in the source this happens after the shard lock
is released).  On a failed push the source executes `return 0, err` where
`err` is the *outer* `var err error` — still nil, because the `err` bound by
`if index, err := s.entries.Push(w)` shadows it — so the caller receives
`(0, nil)`; the model returns `(0, none)` faithfully. -/
def CacheShard.set (s : CacheShard) (key : List Nat) (hashedKey : Nat)
    (entry : List Nat) (durationNs now : Nat) :
    CacheShard × Nat × Option ShardError :=
  let expiryTimestamp := mkExpiry durationNs now
  let s1 := s.setRemovePrev key hashedKey
  let w := wrapEntry expiryTimestamp hashedKey key entry
  match s1.entries.Push w with
  | .ok (index, q) =>
    let s2 := { s1 with entries := q,
                        hashmap := insertMap hashedKey (index % 2 ^ 32) s1.hashmap }
    if durationNs ≠ NO_EXPIRY then
      ({ s2 with ttlTable := ttlPut expiryTimestamp key s2.ttlTable },
        expiryTimestamp, none)
    else (s2, expiryTimestamp, none)
  | .error _ => (s1, 0, none)

/-- The push of `cacheShard.set` succeeded (the branch of the source in which
`s.entries.Push(w)` returns a nil error). -/
def CacheShard.setPushOk (s : CacheShard) (key : List Nat) (hashedKey : Nat)
    (entry : List Nat) (durationNs now : Nat) : Prop :=
  ((s.setRemovePrev key hashedKey).entries.Push
      (wrapEntry (mkExpiry durationNs now) hashedKey key entry)).isOk = true

instance (s : CacheShard) (key : List Nat) (hashedKey : Nat) (entry : List Nat)
    (durationNs now : Nat) :
    Decidable (s.setPushOk key hashedKey entry durationNs now) := by
  unfold CacheShard.setPushOk; infer_instance

/-- Source `cacheShard.del`: look up the index (0 is a delete-miss); read the
wrapped entry (errors are delete-misses); otherwise remove the hash from the
map, pass the wrapper to `onRemove`, zero its key-length, tombstone its queue
slot, and forget its timestamp from the TTL table. -/
def CacheShard.del (s : CacheShard) (key : List Nat) (hashedKey : Nat) :
    CacheShard × Option ShardError :=
  let itemIndex := lookup s.hashmap hashedKey
  if itemIndex = 0 then (s.delmiss, some .notFound)
  else
    match s.entries.Get itemIndex with
    | .error e => (s.delmiss, some e)
    | .ok wrappedEntry =>
      let s1 := { s with hashmap := eraseMap hashedKey s.hashmap,
                         removedLog := s.removedLog ++ [wrappedEntry],
                         entries := (s.entries.resetKey itemIndex).Delete itemIndex }
      let timestamp := readTimestampFromEntry wrappedEntry
      let s2 := { s1 with ttlTable := ttlRemove timestamp key s1.ttlTable }
      (s2.delhit, none)

/-- One iteration of the `cacheShard.evictDel` loop for a single cohort key:
bump `EvictCount`, hash the key with the shard hasher (a `uint64`), look it
up (0 or an unreadable entry is a delete-miss), and delete the entry exactly
when its stored expiry timestamp equals the firing cohort timestamp,
passing the wrapper to `onRemove`. -/
def CacheShard.evictStep (timeStamp : Nat) (s : CacheShard) (key : List Nat) :
    CacheShard :=
  let s := s.evictCountUp
  let keyHash := s.hasher key % 2 ^ 64
  let itemIndex := lookup s.hashmap keyHash
  if itemIndex = 0 then s.delmiss
  else
    match s.entries.Get itemIndex with
    | .error _ => s.delmiss
    | .ok wrappedEntry =>
      if readTimestampFromEntry wrappedEntry = timeStamp then
        CacheShard.delhit
          { s with hashmap := eraseMap keyHash s.hashmap,
                   removedLog := s.removedLog ++ [wrappedEntry],
                   entries := (s.entries.resetKey itemIndex).Delete itemIndex }
      else s

/-- Source `cacheShard.evictDel`: iterate `evictStep` over every key of the
firing cohort (the `hashset.Set` values, modelled as a list). -/
def CacheShard.evictDel (s : CacheShard) (timeStamp : Nat) (keys : List (List Nat)) :
    CacheShard :=
  keys.foldl (CacheShard.evictStep timeStamp) s

/-- Source `cacheShard.removeOldestEntry`: pop the oldest live entry, delete
its stored hash from the map and pass it to `onRemove`. -/
def CacheShard.removeOldestEntry (s : CacheShard) : CacheShard × Option ShardError :=
  match s.entries.Pop with
  | .ok (oldest, q) =>
    ({ s with entries := q,
              hashmap := eraseMap (readHashFromEntry oldest) s.hashmap,
              removedLog := s.removedLog ++ [oldest] }, none)
  | .error e => (s, some e)

/-- Source `initNewShard`: an empty shard whose queue starts at
`initialCapacity` bytes and may grow to `maxCapacity` bytes. -/
def initShard (initialCapacity maxCapacity : Nat) (hasher : List Nat → Nat) :
    CacheShard :=
  { hashmap := []
    entries := { slots := [], tail := 0, capacity := initialCapacity,
                 maxCapacity := maxCapacity }
    removedLog := []
    stats := Stats.zero
    ttlTable := []
    hasher := hasher }

/-- A concrete hasher for witnesses and counterexamples. -/
def hzero : List Nat → Nat := fun _ => 0

/-- Modelled from the spec: the wire-message codes of the missing `message`
package (spec section 4.5 table); the concrete u16 values are irrelevant to
the claims, so the codes are an enumeration. -/
inductive MsgCode where
  | msgVERIFY
  | msgVERIFYOK
  | msgPING
  | msgPONG
  | msgSyncReq
  | msgSyncRsp
  | msgGETReq
  | msgGETRsp
  | msgPUT
  | msgDEL
deriving DecidableEq, Repr

/-- Source `message.NodeWireMessage`: a decoded wire frame, message code plus
body bytes. -/
structure NodeWireMessage where
  code : MsgCode
  data : List Nat
deriving DecidableEq, Repr

/-- Outbound messages handed to `sendMessage` (source `message.NodeMessage`
implementations); only the payloads the verified operations construct are
carried explicitly. -/
inductive NodeMessage where
  | ping
  | pong
  | verify (id servicePort : String)
  | verifyOk
  | syncReq
  | getReq (key pendingKey : String)
  | other (code : MsgCode)
deriving DecidableEq, Repr

/-- Source remote-node states (the `nodeState*` iota constants). -/
inductive NodeState where
  | nodeStateConnecting
  | nodeStateConnected
  | nodeStateDisconnected
  | nodeStateHandshake
deriving DecidableEq, Repr

/-- Source `getRequestData` (the reply channels are not modelled). -/
structure GetRequestData where
  key : String
  randStr : String
deriving DecidableEq, Repr

/-- The remote node (source `remoteNode`), restricted to the state the
verified operations touch: the connection state, the inbound and outbound
queues (channels modelled as lists), the `dropedMsg` metric, the pending-GET
map (`sync.Map` modelled as an association list) and the `Sync` flag of its
configuration. -/
structure RemoteNode where
  state : NodeState
  inboundMsgQueue : List NodeWireMessage
  outboundMsgQueue : List NodeMessage
  dropedMsg : Nat
  pendingGet : List (String × GetRequestData)
  sync : Bool
deriving DecidableEq, Repr

/-- Source `remoteNode.sendMessage`: drop the message if the node is
disconnected, otherwise queue it on the outbound channel. -/
def RemoteNode.sendMessage (r : RemoteNode) (m : NodeMessage) : RemoteNode :=
  if r.state = .nodeStateDisconnected then r
  else { r with outboundMsgQueue := r.outboundMsgQueue ++ [m] }

/-- Source `remoteNode.queueInboundMessage`: in the handshake state only
VERIFY and VERIFY_OK are accepted, every other code bumps `dropedMsg` and is
discarded; otherwise the message is queued unless the node is
disconnected. -/
def RemoteNode.queueInboundMessage (r : RemoteNode) (msg : NodeWireMessage) :
    RemoteNode :=
  if r.state = .nodeStateHandshake ∧ msg.code ≠ .msgVERIFY ∧ msg.code ≠ .msgVERIFYOK then
    { r with dropedMsg := r.dropedMsg + 1 }
  else if r.state ≠ .nodeStateDisconnected then
    { r with inboundMsgQueue := r.inboundMsgQueue ++ [msg] }
  else r

/-- Source `remoteNode.getData`: return immediately when disconnected;
otherwise store the request in the pending-GET map under `key ++ randStr` and
send a GET_REQ message. -/
def RemoteNode.getData (r : RemoteNode) (reqData : GetRequestData) : RemoteNode :=
  if r.state = .nodeStateDisconnected then r
  else
    let pendingKey := reqData.key ++ reqData.randStr
    let r1 := { r with pendingGet :=
      (pendingKey, reqData) :: r.pendingGet.filter (fun p => p.1 != pendingKey) }
    r1.sendMessage (.getReq reqData.key pendingKey)

/-- The count reached by the polling loop of `handleVerifyOK`: starting from
`count = c`, while the observed state is still Handshake sleep one second and
increment, breaking once the count reaches 5.  `obs n` is the node state seen
at the n-th poll (the state field is mutated by other goroutines; the loop
only reads it). -/
def waitCountAux (obs : Nat → NodeState) : Nat → Nat → Nat
  | 0, c => c
  | fuel + 1, c =>
    if obs c = .nodeStateHandshake then waitCountAux obs fuel (c + 1) else c

/-- Source `remoteNode.handleVerifyOK`: the spawned goroutine polls the node
state once per second with a budget of five polls; if the state left
Handshake within the budget and the peer was configured with `Sync`, it sends
a SYNC_REQ through `sendMessage` (whose disconnected-guard sees the state
last observed).  Past the budget the attempt is only logged; the goroutine
never writes the state or tears the connection down. -/
def RemoteNode.handleVerifyOKWaiter (r : RemoteNode) (obs : Nat → NodeState) :
    RemoteNode :=
  let count := waitCountAux obs 5 0
  if count < 5 ∧ r.sync = true ∧ obs count ≠ .nodeStateDisconnected then
    { r with outboundMsgQueue := r.outboundMsgQueue ++ [NodeMessage.syncReq] }
  else r

/-- Queue well-formedness maintained by the shard operations: every slot index
is a positive offset no greater than `tail`, indices are strictly increasing
in push order, and the byte accounting stays below the u32 index space. -/
def QWF (q : BytesQueue) : Prop :=
  (∀ sl ∈ q.slots, 1 ≤ sl.index ∧ sl.index ≤ q.tail) ∧
  q.slots.Pairwise (fun a b => a.index < b.index) ∧
  q.tail ≤ q.capacity ∧ q.capacity < 2 ^ 32 ∧ q.maxCapacity < 2 ^ 32

/-- The single-occupancy invariant of spec section 3, phrased on a hashmap and
a queue: the hashmap has at most one binding per hash, a non-zero binding
points at a live queue slot carrying that hash, and every live slot is
pointed at by its stored hash. -/
def ShardInvHE (hm : List (Nat × Nat)) (q : BytesQueue) : Prop :=
  QWF q ∧
  hm.Pairwise (fun a b => a.1 ≠ b.1) ∧
  (∀ h, lookup hm h ≠ 0 →
    ∃ sl ∈ q.slots, sl.index = lookup hm h ∧ sl.alive = true ∧
      readHashFromEntry sl.data = h) ∧
  (∀ sl ∈ q.slots, sl.alive = true →
    lookup hm (readHashFromEntry sl.data) = sl.index)

/-- The single-occupancy shard invariant: `ShardInvHE` on the shard's own
hashmap and queue. -/
def ShardInv (s : CacheShard) : Prop := ShardInvHE s.hashmap s.entries

/-- One shard mutation, with the hash constrained to the `uint64` range of
the source signature.  This is the unrestricted step relation: a `set` step
is included whether or not its internal push succeeded. -/
inductive ShardStep : CacheShard → CacheShard → Prop where
  | set (s : CacheShard) (key : List Nat) (hashedKey : Nat) (entry : List Nat)
      (durationNs now : Nat) (hh : hashedKey < 2 ^ 64) :
      ShardStep s (s.set key hashedKey entry durationNs now).1
  | del (s : CacheShard) (key : List Nat) (hashedKey : Nat) (hh : hashedKey < 2 ^ 64) :
      ShardStep s (s.del key hashedKey).1
  | evictDel (s : CacheShard) (timeStamp : Nat) (keys : List (List Nat)) :
      ShardStep s (s.evictDel timeStamp keys)
  | removeOldest (s : CacheShard) :
      ShardStep s s.removeOldestEntry.1

/-- One shard mutation in which a `set` step is only allowed when its queue
push succeeds (the amendment forced by the QueueFull path of `set`). -/
inductive ShardStepOk : CacheShard → CacheShard → Prop where
  | set (s : CacheShard) (key : List Nat) (hashedKey : Nat) (entry : List Nat)
      (durationNs now : Nat) (hh : hashedKey < 2 ^ 64)
      (hpush : s.setPushOk key hashedKey entry durationNs now) :
      ShardStepOk s (s.set key hashedKey entry durationNs now).1
  | del (s : CacheShard) (key : List Nat) (hashedKey : Nat) (hh : hashedKey < 2 ^ 64) :
      ShardStepOk s (s.del key hashedKey).1
  | evictDel (s : CacheShard) (timeStamp : Nat) (keys : List (List Nat)) :
      ShardStepOk s (s.evictDel timeStamp keys)
  | removeOldest (s : CacheShard) :
      ShardStepOk s s.removeOldestEntry.1

/-- Reachability by any sequence of shard operations. -/
inductive ReachesAny (s0 : CacheShard) : CacheShard → Prop where
  | refl : ReachesAny s0 s0
  | tail {s s' : CacheShard} : ReachesAny s0 s → ShardStep s s' → ReachesAny s0 s'

/-- Reachability by sequences of shard operations whose pushes all succeed. -/
inductive ReachesOk (s0 : CacheShard) : CacheShard → Prop where
  | refl : ReachesOk s0 s0
  | tail {s s' : CacheShard} : ReachesOk s0 s → ShardStepOk s s' → ReachesOk s0 s'

/-- Counterexample state for the single-occupancy claim, first step: a shard
whose queue is full after one 20-byte entry for hash 1 (capacity and maximum
capacity are both 24 bytes). -/
def c5Shard1 : CacheShard := ((initShard 24 24 hzero).set [1] 1 [2] 0 0).1

/-- Counterexample state, second step: overwriting hash 1 tombstones the
stored entry, and then the push of the replacement fails (the queue cannot
grow past 24 bytes), leaving `hashmap[1]` pointing at the dead slot. -/
def c5Shard2 : CacheShard := (c5Shard1.set [1] 1 [3] 0 0).1

/-- Witness state for the amended single-occupancy claim: one successful
`set` from a fresh shard. -/
def c5ShardOk : CacheShard := ((initShard 100 200 hzero).set [7] 5 [1, 2] 0 3).1

/-- Witness shard for the bug exhibited by claim C1: same initial state as the
counterexample chain (one entry for hash 1 filling the 24-byte queue). -/
def c1Shard : CacheShard := c5Shard1

/-- Concrete state-observation sequence for the VERIFY_OK waiter witness: the
node is still in Handshake at the first poll and Connected from then on. -/
def obsConnected1 : Nat → NodeState :=
  fun n => if n = 0 then .nodeStateHandshake else .nodeStateConnected

/-- Concrete remote node for the cluster witnesses. -/
def rnHandshake : RemoteNode :=
  { state := .nodeStateHandshake, inboundMsgQueue := [], outboundMsgQueue := [],
    dropedMsg := 0, pendingGet := [], sync := true }

/-- Concrete disconnected remote node for the `getData` frame witness. -/
def rnDisconnected : RemoteNode :=
  { state := .nodeStateDisconnected, inboundMsgQueue := [⟨.msgPING, []⟩],
    outboundMsgQueue := [.pong], dropedMsg := 2,
    pendingGet := [("ka", ⟨"k", "a"⟩)], sync := false }

/-- Decidable equality for `Except` results, so witnesses can be checked by
evaluation. -/
instance {e a : Type} [DecidableEq e] [DecidableEq a] : DecidableEq (Except e a) :=
  fun x y =>
    match x, y with
    | .ok u, .ok v =>
      if h : u = v then .isTrue (by rw [h]) else .isFalse (by intro hc; cases hc; exact h rfl)
    | .error u, .error v =>
      if h : u = v then .isTrue (by rw [h]) else .isFalse (by intro hc; cases hc; exact h rfl)
    | .ok _, .error _ => .isFalse (by intro hc; cases hc)
    | .error _, .ok _ => .isFalse (by intro hc; cases hc)

/-- Witness shard for the eviction-cohort claim: one entry for key `[7]`
(hashed to 0 by `hzero`) stored with a 2-second TTL at epoch second 10, so
its stored expiry is 12. -/
def c6Shard : CacheShard := ((initShard 100 200 hzero).set [7] 0 [1, 2] 2000000000 10).1

theorem toLE_length (k n : Nat) : (toLE k n).length = k := by
  induction k generalizing n with
  | zero => rfl
  | succ k ih => simp [toLE, ih]

theorem leNat_cons (b : Nat) (bs : List Nat) : leNat (b :: bs) = b + 256 * leNat bs := rfl

theorem leNat_toLE (k n : Nat) : leNat (toLE k n) = n % 256 ^ k := by
  induction k generalizing n with
  | zero => simp [toLE, leNat, Nat.mod_one]
  | succ k ih =>
    rw [toLE, leNat_cons, ih, show (256 : Nat) ^ (k + 1) = 256 * 256 ^ k by ring,
      Nat.mod_mul]

theorem wrapEntry_eq (ex h : Nat) (k v : List Nat) :
    wrapEntry ex h k v =
      toLE 8 ex ++ (toLE 8 h ++ (toLE 2 k.length ++ (k ++ v))) := by
  simp [wrapEntry, List.append_assoc]

theorem readTimestampFromEntry_wrap (ex h : Nat) (k v : List Nat) :
    readTimestampFromEntry (wrapEntry ex h k v) = ex % 2 ^ 64 := by
  rw [readTimestampFromEntry, wrapEntry_eq, List.take_left' (toLE_length 8 ex),
    leNat_toLE]
  norm_num

theorem readHashFromEntry_wrap (ex h : Nat) (k v : List Nat) :
    readHashFromEntry (wrapEntry ex h k v) = h % 2 ^ 64 := by
  rw [readHashFromEntry, wrapEntry_eq, List.drop_left' (toLE_length 8 ex),
    List.take_left' (toLE_length 8 h), leNat_toLE]
  norm_num

theorem readKeyLenFromEntry_wrap (ex h : Nat) (k v : List Nat) :
    readKeyLenFromEntry (wrapEntry ex h k v) = k.length % 2 ^ 16 := by
  have hlen : (toLE 8 ex ++ toLE 8 h).length = 16 := by
    simp [toLE_length]
  rw [readKeyLenFromEntry, wrapEntry, show
      toLE 8 ex ++ toLE 8 h ++ toLE 2 k.length ++ k ++ v =
        (toLE 8 ex ++ toLE 8 h) ++ (toLE 2 k.length ++ (k ++ v)) by
        simp [List.append_assoc],
    List.drop_left' hlen, List.take_left' (toLE_length 2 k.length), leNat_toLE]
  norm_num

theorem readKeyFromEntry_wrap (ex h : Nat) (k v : List Nat)
    (hk : k.length < 2 ^ 16) :
    readKeyFromEntry (wrapEntry ex h k v) = k := by
  have hlen : (toLE 8 ex ++ toLE 8 h ++ toLE 2 k.length).length = 18 := by
    simp [toLE_length]
  rw [readKeyFromEntry, readKeyLenFromEntry_wrap, Nat.mod_eq_of_lt hk, wrapEntry, show
      toLE 8 ex ++ toLE 8 h ++ toLE 2 k.length ++ k ++ v =
        (toLE 8 ex ++ toLE 8 h ++ toLE 2 k.length) ++ (k ++ v) by
        simp [List.append_assoc],
    List.drop_left' hlen, List.take_left' rfl]

theorem readEntry_wrap (ex h : Nat) (k v : List Nat) (hk : k.length < 2 ^ 16) :
    readEntry (wrapEntry ex h k v) = v := by
  have hlen : (toLE 8 ex ++ toLE 8 h ++ toLE 2 k.length).length = 18 := by
    simp [toLE_length]
  rw [readEntry, readKeyLenFromEntry_wrap, Nat.mod_eq_of_lt hk]
  rw [show wrapEntry ex h k v =
      (toLE 8 ex ++ toLE 8 h ++ toLE 2 k.length) ++ (k ++ v) from by
        simp [wrapEntry, List.append_assoc]]
  rw [← List.drop_drop, List.drop_left' hlen, List.drop_left' rfl]

theorem lookup_insert_self (h v : Nat) (m : List (Nat × Nat)) :
    lookup (insertMap h v m) h = v := by
  simp [lookup, insertMap, List.find?]

theorem lookup_insert_ne (h v h' : Nat) (m : List (Nat × Nat)) (hne : h' ≠ h) :
    lookup (insertMap h v m) h' = lookup m h' := by
  have hbeq : (h == h') = false := by simp [Ne.symm hne]
  simp only [lookup, insertMap, List.find?, hbeq]
  induction m with
  | nil => rfl
  | cons a t ih =>
    by_cases ha : a.1 = h
    · have h1 : (a.1 != h) = false := by simp [ha]
      have h2 : (a.1 == h') = false := by simp [ha, Ne.symm hne]
      simp only [List.filter, h1, List.find?, h2]
      exact ih
    · have h1 : (a.1 != h) = true := by simp [ha]
      simp only [List.filter, h1, List.find?]
      by_cases ha' : a.1 = h'
      · simp [ha']
      · have h2 : (a.1 == h') = false := by simp [ha']
        simp only [h2]
        exact ih

theorem lookup_erase_self (h : Nat) (m : List (Nat × Nat)) :
    lookup (eraseMap h m) h = 0 := by
  simp only [lookup, eraseMap]
  have : (m.filter (fun p => p.1 != h)).find? (fun p => p.1 == h) = none := by
    rw [List.find?_eq_none]
    intro p hp
    have := List.of_mem_filter hp
    simp at this ⊢
    exact this
  rw [this]

theorem lookup_erase_ne (h h' : Nat) (m : List (Nat × Nat)) (hne : h' ≠ h) :
    lookup (eraseMap h m) h' = lookup m h' := by
  simp only [lookup, eraseMap]
  induction m with
  | nil => rfl
  | cons a t ih =>
    by_cases ha : a.1 = h
    · have h1 : (a.1 != h) = false := by simp [ha]
      have h2 : (a.1 == h') = false := by simp [ha, Ne.symm hne]
      simp only [List.filter, h1, List.find?, h2]
      exact ih
    · have h1 : (a.1 != h) = true := by simp [ha]
      simp only [List.filter, h1, List.find?]
      by_cases ha' : a.1 = h'
      · simp [ha']
      · have h2 : (a.1 == h') = false := by simp [ha']
        simp only [h2]
        exact ih

theorem growUntil_le (maxCap target : Nat) (fuel cap : Nat) :
    growUntil maxCap target fuel cap ≤ max cap maxCap := by
  induction fuel generalizing cap with
  | zero => simp [growUntil]
  | succ fuel ih =>
    rw [growUntil]
    split
    · exact le_max_left _ _
    · split
      · exact le_max_left _ _
      · have h := ih (min (2 * cap) maxCap)
        have : min (2 * cap) maxCap ≤ maxCap := min_le_right _ _
        omega

theorem Push_ok {q : BytesQueue} {p : List Nat} {i : Nat} {q' : BytesQueue}
    (h : q.Push p = .ok (i, q')) :
    i = q.tail + 1 ∧
    q'.slots = q.slots ++ [⟨q.tail + 1, p, true⟩] ∧
    q'.tail = q.tail + (4 + p.length) ∧
    q'.maxCapacity = q.maxCapacity ∧
    q'.tail ≤ q'.capacity ∧ q'.capacity ≤ max q.capacity q.maxCapacity := by
  rw [BytesQueue.Push] at h
  dsimp only at h
  split at h
  · rename_i hle
    injection h with h
    injection h with h1 h2
    subst h1; subst h2
    refine ⟨rfl, rfl, rfl, rfl, hle, le_max_left _ _⟩
  · split at h
    · rename_i hle2
      injection h with h
      injection h with h1 h2
      subst h1; subst h2
      exact ⟨rfl, rfl, rfl, rfl, hle2, growUntil_le _ _ _ _⟩
    · exact absurd h (by simp)

theorem find?_index_append_last {l : List QSlot} (n : Nat) (d : List Nat) (b : Bool)
    (hIdx : ∀ sl ∈ l, sl.index < n) :
    (l ++ [QSlot.mk n d b]).find? (fun sl => sl.index == n) = some (QSlot.mk n d b) := by
  rw [List.find?_append]
  have h1 : l.find? (fun sl => sl.index == n) = none := by
    rw [List.find?_eq_none]
    intro sl hm
    have := hIdx sl hm
    simp
    omega
  rw [h1]
  simp [List.find?]

theorem Get_push {q : BytesQueue} {p : List Nat} {i : Nat} {q' : BytesQueue}
    (hIdx : ∀ sl ∈ q.slots, sl.index ≤ q.tail)
    (h : q.Push p = .ok (i, q')) : q'.Get i = .ok p := by
  obtain ⟨hi, hs, -⟩ := Push_ok h
  subst hi
  have hfind := find?_index_append_last (l := q.slots) (q.tail + 1) p true
    (by intro sl hm; have := hIdx sl hm; omega)
  rw [BytesQueue.Get, hs, hfind]
  simp

theorem find?_pairwise_mem {l : List QSlot}
    (hp : l.Pairwise (fun a b => a.index < b.index)) {sl : QSlot} (hm : sl ∈ l) :
    l.find? (fun x => x.index == sl.index) = some sl := by
  induction l with
  | nil => cases hm
  | cons a t ih =>
    rcases List.mem_cons.mp hm with rfl | hmt
    · simp [List.find?]
    · have ha : a.index < sl.index := (List.pairwise_cons.mp hp).1 sl hmt
      have hbeq : (a.index == sl.index) = false := by simp; omega
      simp only [List.find?, hbeq]
      exact ih (List.pairwise_cons.mp hp).2 hmt

theorem resetKey_fields (q : BytesQueue) (i : Nat) :
    (q.resetKey i).tail = q.tail ∧ (q.resetKey i).capacity = q.capacity ∧
      (q.resetKey i).maxCapacity = q.maxCapacity := ⟨rfl, rfl, rfl⟩

theorem Delete_fields (q : BytesQueue) (i : Nat) :
    (q.Delete i).tail = q.tail ∧ (q.Delete i).capacity = q.capacity ∧
      (q.Delete i).maxCapacity = q.maxCapacity := ⟨rfl, rfl, rfl⟩

theorem mem_resetKey {q : BytesQueue} {i : Nat} {sl' : QSlot}
    (hm : sl' ∈ (q.resetKey i).slots) :
    ∃ sl ∈ q.slots, sl'.index = sl.index ∧ sl'.alive = sl.alive := by
  rw [BytesQueue.resetKey] at hm
  simp only [List.mem_map] at hm
  obtain ⟨sl, hsl, heq⟩ := hm
  refine ⟨sl, hsl, ?_⟩
  subst heq
  split <;> simp

theorem mem_Delete {q : BytesQueue} {i : Nat} {sl' : QSlot}
    (hm : sl' ∈ (q.Delete i).slots) :
    ∃ sl ∈ q.slots, sl'.index = sl.index ∧ (sl'.alive = true → sl.alive = true) := by
  rw [BytesQueue.Delete] at hm
  simp only [List.mem_map] at hm
  obtain ⟨sl, hsl, heq⟩ := hm
  refine ⟨sl, hsl, ?_⟩
  subst heq
  split <;> simp

theorem setRemovePrev_spec (s : CacheShard) (k : List Nat) (h : Nat) :
    (s.setRemovePrev k h).hashmap = s.hashmap ∧
    (s.setRemovePrev k h).removedLog = s.removedLog ∧
    (s.setRemovePrev k h).hasher = s.hasher ∧
    (s.setRemovePrev k h).entries.tail = s.entries.tail ∧
    (s.setRemovePrev k h).entries.capacity = s.entries.capacity ∧
    (s.setRemovePrev k h).entries.maxCapacity = s.entries.maxCapacity ∧
    (∀ sl ∈ (s.setRemovePrev k h).entries.slots,
      ∃ sl0 ∈ s.entries.slots, sl.index = sl0.index) := by
  rw [CacheShard.setRemovePrev]
  dsimp only
  split
  · split
    · refine ⟨rfl, rfl, rfl, rfl, rfl, rfl, ?_⟩
      intro sl hm
      obtain ⟨sl1, hm1, hi1, -⟩ := mem_Delete hm
      obtain ⟨sl0, hm0, hi0, -⟩ := mem_resetKey hm1
      exact ⟨sl0, hm0, by omega⟩
    · exact ⟨rfl, rfl, rfl, rfl, rfl, rfl, fun sl hm => ⟨sl, hm, rfl⟩⟩
  · exact ⟨rfl, rfl, rfl, rfl, rfl, rfl, fun sl hm => ⟨sl, hm, rfl⟩⟩

theorem set_ok_spec {s : CacheShard} {k : List Nat} {h : Nat} {v : List Nat}
    {d now : Nat} (hpush : s.setPushOk k h v d now)
    (hcap : s.entries.capacity < 2 ^ 32) (hmax : s.entries.maxCapacity < 2 ^ 32)
    (hIdx : ∀ sl ∈ s.entries.slots, sl.index ≤ s.entries.tail) :
    ∃ q',
      (s.setRemovePrev k h).entries.Push (wrapEntry (mkExpiry d now) h k v) =
        .ok (s.entries.tail + 1, q') ∧
      (s.set k h v d now).1.hashmap =
        insertMap h (s.entries.tail + 1) s.hashmap ∧
      (s.set k h v d now).1.entries = q' ∧
      (s.set k h v d now).2.1 = mkExpiry d now ∧
      (s.set k h v d now).2.2 = none ∧
      q'.Get (s.entries.tail + 1) = .ok (wrapEntry (mkExpiry d now) h k v) ∧
      (s.set k h v d now).1.removedLog = s.removedLog ∧
      (s.set k h v d now).1.ttlTable =
        (if d ≠ NO_EXPIRY then
          ttlPut (mkExpiry d now) k (s.setRemovePrev k h).ttlTable
        else (s.setRemovePrev k h).ttlTable) := by
  obtain ⟨hm, hlog, hhash, htail, hcap1, hmax1, hidx1⟩ := setRemovePrev_spec s k h
  rw [CacheShard.setPushOk] at hpush
  rcases hpe : (s.setRemovePrev k h).entries.Push (wrapEntry (mkExpiry d now) h k v)
    with e | ⟨i, q'⟩
  · rw [hpe] at hpush
    simp [Except.isOk, Except.toBool] at hpush
  · obtain ⟨hi, hslots, htail2, hmaxc, hle, hcapb⟩ := Push_ok hpe
    have hiv : i < 2 ^ 32 := by
      have h1 : i ≤ q'.tail := by omega
      have h2 : q'.capacity ≤ max (s.setRemovePrev k h).entries.capacity
          (s.setRemovePrev k h).entries.maxCapacity := hcapb
      rw [hcap1, hmax1] at h2
      omega
    have hi' : i = s.entries.tail + 1 := by rw [hi, htail]
    have hmod : (s.entries.tail + 1) % 2 ^ 32 = s.entries.tail + 1 := by
      rw [← hi']
      exact Nat.mod_eq_of_lt hiv
    have hGetIdx : ∀ sl ∈ (s.setRemovePrev k h).entries.slots,
        sl.index ≤ (s.setRemovePrev k h).entries.tail := by
      intro sl hmem
      obtain ⟨sl0, hm0, hidx0⟩ := hidx1 sl hmem
      rw [htail, hidx0]
      exact hIdx sl0 hm0
    have hget : q'.Get i = .ok (wrapEntry (mkExpiry d now) h k v) :=
      Get_push hGetIdx hpe
    rw [hi'] at hpe hget
    refine ⟨q', by rw [hi'], ?_, ?_, ?_, ?_, hget, ?_, ?_⟩
    · simp only [CacheShard.set, hpe]
      have hlt : s.entries.tail + 1 < 4294967296 := by omega
      split <;> simp [Nat.mod_eq_of_lt hlt, hm]
    · simp only [CacheShard.set, hpe]
      split <;> rfl
    · simp only [CacheShard.set, hpe]
      split <;> rfl
    · simp only [CacheShard.set, hpe]
      split <;> rfl
    · simp only [CacheShard.set, hpe]
      split <;> simp [hlog]
    · simp only [CacheShard.set, hpe]
      by_cases hd : d = NO_EXPIRY <;> simp [hd]

theorem get_eq_of_hit {s : CacheShard} {k : List Nat} {h i : Nat} {w : List Nat}
    (hl : lookup s.hashmap h = i) (hi : i ≠ 0) (hg : s.entries.Get i = .ok w)
    (hk : readKeyFromEntry w = k) :
    s.get k h = (s.hit, .ok (readEntry w)) := by
  rw [CacheShard.get]
  rw [hl, if_neg hi, hg]
  simp [hk]

theorem get_eq_of_collision {s : CacheShard} {k : List Nat} {h i : Nat}
    {w : List Nat} (hl : lookup s.hashmap h = i) (hi : i ≠ 0)
    (hg : s.entries.Get i = .ok w) (hk : readKeyFromEntry w ≠ k) :
    s.get k h = (s.collision, .error .notFound) := by
  rw [CacheShard.get]
  rw [hl, if_neg hi, hg]
  simp [hk]

theorem set_get_self {s : CacheShard} {k : List Nat} {h : Nat} {v : List Nat}
    {d now : Nat} (hk : k.length < 2 ^ 16)
    (hcap : s.entries.capacity < 2 ^ 32) (hmax : s.entries.maxCapacity < 2 ^ 32)
    (hIdx : ∀ sl ∈ s.entries.slots, sl.index ≤ s.entries.tail)
    (hpush : s.setPushOk k h v d now) :
    ((s.set k h v d now).1.get k h).2 = .ok v := by
  obtain ⟨q', hpe, hmap, hent, hexp, herr, hget, hlogx, httl⟩ :=
    set_ok_spec hpush hcap hmax hIdx
  have hl : lookup (s.set k h v d now).1.hashmap h = s.entries.tail + 1 := by
    rw [hmap, lookup_insert_self]
  have hgq : (s.set k h v d now).1.entries.Get (s.entries.tail + 1) =
      .ok (wrapEntry (mkExpiry d now) h k v) := by
    rw [hent]
    exact hget
  have heq := get_eq_of_hit hl (by omega) hgq (readKeyFromEntry_wrap _ _ _ _ hk)
  rw [heq, readEntry_wrap _ _ _ _ hk]

theorem set_get_collision {s : CacheShard} {k k' : List Nat} {h : Nat}
    {v : List Nat} {d now : Nat} (hk : k.length < 2 ^ 16) (hne : k' ≠ k)
    (hcap : s.entries.capacity < 2 ^ 32) (hmax : s.entries.maxCapacity < 2 ^ 32)
    (hIdx : ∀ sl ∈ s.entries.slots, sl.index ≤ s.entries.tail)
    (hpush : s.setPushOk k h v d now) :
    ((s.set k h v d now).1.get k' h).2 = .error .notFound := by
  obtain ⟨q', hpe, hmap, hent, hexp, herr, hget, hlogx, httl⟩ :=
    set_ok_spec hpush hcap hmax hIdx
  have hl : lookup (s.set k h v d now).1.hashmap h = s.entries.tail + 1 := by
    rw [hmap, lookup_insert_self]
  have hgq : (s.set k h v d now).1.entries.Get (s.entries.tail + 1) =
      .ok (wrapEntry (mkExpiry d now) h k v) := by
    rw [hent]
    exact hget
  have hkey : readKeyFromEntry (wrapEntry (mkExpiry d now) h k v) ≠ k' := by
    rw [readKeyFromEntry_wrap _ _ _ _ hk]
    exact fun hc => hne hc.symm
  have heq := get_eq_of_collision hl (by omega) hgq hkey
  rw [heq]

theorem set_preserves_bounds {s : CacheShard} {k : List Nat} {h : Nat}
    {v : List Nat} {d now : Nat} (hpush : s.setPushOk k h v d now)
    (hcap : s.entries.capacity < 2 ^ 32) (hmax : s.entries.maxCapacity < 2 ^ 32)
    (hIdx : ∀ sl ∈ s.entries.slots, sl.index ≤ s.entries.tail) :
    (s.set k h v d now).1.entries.capacity < 2 ^ 32 ∧
    (s.set k h v d now).1.entries.maxCapacity < 2 ^ 32 ∧
    (∀ sl ∈ (s.set k h v d now).1.entries.slots,
      sl.index ≤ (s.set k h v d now).1.entries.tail) := by
  obtain ⟨hm, hlog, hhash, htail, hcap1, hmax1, hidx1⟩ := setRemovePrev_spec s k h
  obtain ⟨q', hpe, hmap, hent, hexp, herr, hget, hlogx, httl⟩ :=
    set_ok_spec hpush hcap hmax hIdx
  obtain ⟨hi, hslots, htail2, hmaxc, hle, hcapb⟩ := Push_ok hpe
  rw [hcap1, hmax1] at hcapb
  rw [hent]
  refine ⟨by omega, by rw [hmaxc, hmax1]; exact hmax, ?_⟩
  intro sl hmem
  rw [hslots] at hmem
  rcases List.mem_append.mp hmem with hold | hnew
  · obtain ⟨sl0, hm0, hidx0⟩ := hidx1 sl hold
    have := hIdx sl0 hm0
    omega
  · rcases List.mem_singleton.mp hnew with rfl
    simp only []
    omega

/-- Claim C2: for every key `k` and value `v` with `len(v) ≤ MaxEntrySize`,
and any shard state, a successful `set(k, hash(k), v, ttl)` followed by
`get(k, hash(k))` with no intervening operations returns exactly `v` with no
error.  In the source, `get` never inspects the stored expiry, so the
"before the entry expires" proviso of the claim holds for free; the value
bound `len(v) ≤ MaxEntrySize` is carried as a hypothesis (the scratch
`entryBuffer` it sizes is not otherwise observable), and the `uint16`
key-length field of the wrapped entry requires `len(k) < 2^16`. -/
theorem c2_set_get_roundtrip (s : CacheShard) (k : List Nat) (h : Nat)
    (v : List Nat) (d now maxEntrySize : Nat)
    (hk : k.length < 2 ^ 16) (hv : v.length ≤ maxEntrySize)
    (hcap : s.entries.capacity < 2 ^ 32) (hmax : s.entries.maxCapacity < 2 ^ 32)
    (hIdx : ∀ sl ∈ s.entries.slots, sl.index ≤ s.entries.tail)
    (hpush : s.setPushOk k h v d now) :
    ((s.set k h v d now).1.get k h).2 = .ok v ∧
    (s.set k h v d now).2.2 = none := by
  obtain ⟨q', hpe, hmap, hent, hexp, herr, hget, hlogx, httl⟩ :=
    set_ok_spec hpush hcap hmax hIdx
  exact ⟨set_get_self hk hcap hmax hIdx hpush, herr⟩

theorem c2_witness :
    ([7] : List Nat).length < 2 ^ 16 ∧
    ([9, 9] : List Nat).length ≤ 2 ∧
    (initShard 100 200 hzero).setPushOk [7] 3 [9, 9] 0 5 ∧
    (((initShard 100 200 hzero).set [7] 3 [9, 9] 0 5).1.get [7] 3).2 = .ok [9, 9] :=
  ⟨by decide, by decide, by decide,
    (c2_set_get_roundtrip (initShard 100 200 hzero) [7] 3 [9, 9] 0 5 2
      (by decide) (by decide) (by decide) (by decide) (by decide) (by decide)).1⟩

/-- Claim C3: for distinct keys `k1 ≠ k2` with equal hashes, after
`set(k1, h, v1, ttl)` followed by `set(k2, h, v2, ttl)` on the same shard,
`get(k2, h)` returns `v2` and `get(k1, h)` returns NotFound
(last-writer-wins); and after `set(k1, h, v1, ttl)` alone, `get(k2, h)`
returns NotFound (no false hit).  Both sets are assumed to push
successfully, as the claim presupposes the writes happened. -/
theorem c3_collision_safety (s : CacheShard) (k1 k2 : List Nat) (h : Nat)
    (v1 v2 : List Nat) (d1 n1 d2 n2 : Nat)
    (hne : k1 ≠ k2) (hk1 : k1.length < 2 ^ 16) (hk2 : k2.length < 2 ^ 16)
    (hcap : s.entries.capacity < 2 ^ 32) (hmax : s.entries.maxCapacity < 2 ^ 32)
    (hIdx : ∀ sl ∈ s.entries.slots, sl.index ≤ s.entries.tail)
    (hpush1 : s.setPushOk k1 h v1 d1 n1)
    (hpush2 : (s.set k1 h v1 d1 n1).1.setPushOk k2 h v2 d2 n2) :
    (((s.set k1 h v1 d1 n1).1.set k2 h v2 d2 n2).1.get k2 h).2 = .ok v2 ∧
    (((s.set k1 h v1 d1 n1).1.set k2 h v2 d2 n2).1.get k1 h).2 =
      .error .notFound ∧
    ((s.set k1 h v1 d1 n1).1.get k2 h).2 = .error .notFound := by
  obtain ⟨hcapA, hmaxA, hIdxA⟩ := set_preserves_bounds hpush1 hcap hmax hIdx
  refine ⟨set_get_self hk2 hcapA hmaxA hIdxA hpush2, ?_, ?_⟩
  · exact set_get_collision hk2 hne hcapA hmaxA hIdxA hpush2
  · exact set_get_collision hk1 (fun hc => hne hc.symm) hcap hmax hIdx hpush1

theorem c3_witness :
    ([1] : List Nat) ≠ [2] ∧
    (initShard 100 200 hzero).setPushOk [1] 3 [5] 0 0 ∧
    (((initShard 100 200 hzero).set [1] 3 [5] 0 0).1).setPushOk [2] 3 [6] 0 0 ∧
    ((((initShard 100 200 hzero).set [1] 3 [5] 0 0).1.set [2] 3 [6] 0 0).1.get
      [2] 3).2 = .ok [6] ∧
    ((((initShard 100 200 hzero).set [1] 3 [5] 0 0).1.set [2] 3 [6] 0 0).1.get
      [1] 3).2 = .error .notFound ∧
    (((initShard 100 200 hzero).set [1] 3 [5] 0 0).1.get [2] 3).2 =
      .error .notFound := by
  have hmain := c3_collision_safety (initShard 100 200 hzero) [1] [2] 3 [5] [6]
    0 0 0 0 (by decide) (by decide) (by decide) (by decide) (by decide)
    (by decide) (by decide) (by decide)
  exact ⟨by decide, by decide, by decide, hmain.1, hmain.2.1, hmain.2.2⟩

/-- Claim C4: whenever `get(key, hash)` finds a live entry for `hash` whose
stored key bytes differ from `key`, it returns NotFound and increments the
`Collisions` counter exactly once, leaving the hashmap and the queue
unchanged; when the stored key matches, it returns the value and increments
the `Hits` counter. -/
theorem c4_get_collision_detection (s : CacheShard) (k : List Nat) (h i : Nat)
    (w : List Nat) (hl : lookup s.hashmap h = i) (hi : i ≠ 0)
    (hg : s.entries.Get i = .ok w) :
    (readKeyFromEntry w ≠ k →
      (s.get k h).2 = .error .notFound ∧
      (s.get k h).1.stats.collisions = s.stats.collisions + 1 ∧
      (s.get k h).1.stats.hits = s.stats.hits ∧
      (s.get k h).1.stats.misses = s.stats.misses ∧
      (s.get k h).1.hashmap = s.hashmap ∧
      (s.get k h).1.entries = s.entries) ∧
    (readKeyFromEntry w = k →
      (s.get k h).2 = .ok (readEntry w) ∧
      (s.get k h).1.stats.hits = s.stats.hits + 1 ∧
      (s.get k h).1.stats.collisions = s.stats.collisions ∧
      (s.get k h).1.hashmap = s.hashmap ∧
      (s.get k h).1.entries = s.entries) := by
  constructor
  · intro hkne
    rw [get_eq_of_collision hl hi hg hkne]
    simp [CacheShard.collision]
  · intro hkeq
    rw [get_eq_of_hit hl hi hg hkeq]
    simp [CacheShard.hit]

theorem c4_witness :
    (c5ShardOk.get [9] 5).2 = .error .notFound ∧
    (c5ShardOk.get [9] 5).1.stats.collisions = c5ShardOk.stats.collisions + 1 ∧
    (c5ShardOk.get [9] 5).1.hashmap = c5ShardOk.hashmap := by
  have hmain := (c4_get_collision_detection c5ShardOk [9] 5 1
    (wrapEntry 0 5 [7] [1, 2]) (by decide) (by decide) (by rfl)).1 (by decide)
  exact ⟨hmain.1, hmain.2.1, hmain.2.2.2.2.1⟩

theorem set_fail_spec {s : CacheShard} {k : List Nat} {h : Nat} {v : List Nat}
    {d now : Nat} (hpush : ¬ s.setPushOk k h v d now) :
    s.set k h v d now = (s.setRemovePrev k h, 0, none) := by
  rw [CacheShard.setPushOk] at hpush
  rcases hpe : (s.setRemovePrev k h).entries.Push (wrapEntry (mkExpiry d now) h k v)
    with e | ⟨i, q'⟩
  · rw [CacheShard.set]
    dsimp only
    rw [hpe]
  · rw [hpe] at hpush
    simp [Except.isOk, Except.toBool] at hpush

/-- Claim C1 (code bug): pushing the wrapped entry fails with the typed
QueueFull error (first conjunct), yet `set` hands its caller a nil error and
a zero expiry — the `err` bound by `if index, err := s.entries.Push(w)`
shadows the outer `var err error`, so `return 0, err` returns nil.  The
previously stored entry for the hash is indeed not restored: the hashmap
still points at index 1, whose slot stays tombstoned. -/
theorem c1_queuefull_error_lost_to_shadowing :
    (c1Shard.setRemovePrev [1] 1).entries.Push (wrapEntry 0 1 [1] [3]) =
      .error .queueFull ∧
    (c1Shard.set [1] 1 [3] 0 0).2.2 = none ∧
    (c1Shard.set [1] 1 [3] 0 0).2.1 = 0 ∧
    lookup (c1Shard.set [1] 1 [3] 0 0).1.hashmap 1 = 1 ∧
    (∀ sl ∈ (c1Shard.set [1] 1 [3] 0 0).1.entries.slots, sl.alive = false) := by
  refine ⟨by decide, by decide, by decide, by decide, by decide⟩

theorem ttlPut_mem (ts : Nat) (k : List Nat) (t : List (Nat × List Nat)) :
    (ts, k) ∈ ttlPut ts k t := by
  rw [ttlPut]
  split
  · assumption
  · exact List.mem_cons_self _ _

theorem setRemovePrev_ttl_subset (s : CacheShard) (k : List Nat) (h : Nat) :
    ∀ e ∈ (s.setRemovePrev k h).ttlTable, e ∈ s.ttlTable := by
  rw [CacheShard.setRemovePrev]
  dsimp only
  split
  · split
    · intro e he
      exact List.mem_of_mem_filter he
    · exact fun e he => he
  · exact fun e he => he

/-- Claim C9: with duration `NO_EXPIRY` (zero) the wrapped entry is stored
with expiry timestamp 0 and nothing is ever added to the TTL registrations;
with a nonzero duration the entry is stored with
`expiry = (now + duration.Seconds()) % 2^64` and, on a successful push, the
key is registered with the TTL manager under that expiry.  (In the source
the registration happens after `s.lock.Unlock()`; locks are not modelled, so
that ordering is outside this statement.) -/
theorem c9_no_expiry_never_registered (s : CacheShard) (k : List Nat) (h : Nat)
    (v : List Nat) (d now : Nat)
    (hcap : s.entries.capacity < 2 ^ 32) (hmax : s.entries.maxCapacity < 2 ^ 32)
    (hIdx : ∀ sl ∈ s.entries.slots, sl.index ≤ s.entries.tail) :
    (d = 0 →
      (s.set k h v d now).2.1 = 0 ∧
      (∀ e ∈ (s.set k h v d now).1.ttlTable, e ∈ s.ttlTable) ∧
      (s.setPushOk k h v d now →
        (s.set k h v d now).1.entries.Get
            (lookup (s.set k h v d now).1.hashmap h) = .ok (wrapEntry 0 h k v) ∧
        readTimestampFromEntry (wrapEntry 0 h k v) = 0)) ∧
    (d ≠ 0 →
      s.setPushOk k h v d now →
      (s.set k h v d now).2.1 = (now + d / 1000000000) % 2 ^ 64 ∧
      ((now + d / 1000000000) % 2 ^ 64, k) ∈ (s.set k h v d now).1.ttlTable) := by
  constructor
  · intro hd
    subst hd
    have hex : mkExpiry 0 now = 0 := by simp [mkExpiry, NO_EXPIRY]
    by_cases hpush : s.setPushOk k h v 0 now
    · obtain ⟨q', hpe, hmap, hent, hexp, herr, hget, hlogx, httl⟩ :=
        set_ok_spec hpush hcap hmax hIdx
      refine ⟨by rw [hexp, hex], ?_, ?_⟩
      · intro e he
        rw [httl] at he
        simp [NO_EXPIRY] at he
        exact setRemovePrev_ttl_subset s k h e he
      · intro _
        constructor
        · rw [hmap, lookup_insert_self, hent]
          rw [hex] at hget
          exact hget
        · rw [readTimestampFromEntry_wrap]
          simp
    · rw [set_fail_spec hpush]
      refine ⟨rfl, ?_, ?_⟩
      · exact setRemovePrev_ttl_subset s k h
      · intro hp
        exact absurd hp hpush
  · intro hd hpush
    obtain ⟨q', hpe, hmap, hent, hexp, herr, hget, hlogx, httl⟩ :=
      set_ok_spec hpush hcap hmax hIdx
    have hex : mkExpiry d now = (now + d / 1000000000) % 2 ^ 64 := by
      simp [mkExpiry, NO_EXPIRY, hd]
    refine ⟨by rw [hexp, hex], ?_⟩
    rw [httl]
    simp only [NO_EXPIRY, hd, if_pos, ne_eq, not_false_eq_true]
    rw [← hex]
    exact ttlPut_mem _ _ _

theorem c9_witness :
    (((initShard 100 200 hzero).set [4] 2 [8] 3000000000 7).2.1 =
      (7 + 3000000000 / 1000000000) % 2 ^ 64) ∧
    ((7 + 3000000000 / 1000000000) % 2 ^ 64, [4]) ∈
      ((initShard 100 200 hzero).set [4] 2 [8] 3000000000 7).1.ttlTable := by
  have hmain := (c9_no_expiry_never_registered (initShard 100 200 hzero) [4] 2
    [8] 3000000000 7 (by decide) (by decide) (by decide)).2 (by decide) (by decide)
  exact hmain

/-- Claim C6: for every key of the cohort handed to `evictDel(timeStamp, keys)`
(whose loop is the fold of `evictStep` over the cohort), the key's entry is
removed from the hashmap, passed to `onRemove` and deleted from the queue
exactly when the expiry timestamp stored in its wrapped entry equals
`timeStamp`; a key whose stored expiry differs is skipped, leaving the
hashmap, queue, onRemove log and TTL registrations unchanged (only the
`EvictCount` statistic is bumped). -/
theorem c6_evict_cohort_expiry_guard (s : CacheShard) (k : List Nat)
    (timeStamp i : Nat) (w : List Nat)
    (hl : lookup s.hashmap (s.hasher k % 2 ^ 64) = i) (hi : i ≠ 0)
    (hg : s.entries.Get i = .ok w) :
    (readTimestampFromEntry w = timeStamp →
      (CacheShard.evictStep timeStamp s k).hashmap =
        eraseMap (s.hasher k % 2 ^ 64) s.hashmap ∧
      (CacheShard.evictStep timeStamp s k).removedLog = s.removedLog ++ [w] ∧
      (CacheShard.evictStep timeStamp s k).entries =
        (s.entries.resetKey i).Delete i) ∧
    (readTimestampFromEntry w ≠ timeStamp →
      (CacheShard.evictStep timeStamp s k).hashmap = s.hashmap ∧
      (CacheShard.evictStep timeStamp s k).entries = s.entries ∧
      (CacheShard.evictStep timeStamp s k).removedLog = s.removedLog ∧
      (CacheShard.evictStep timeStamp s k).ttlTable = s.ttlTable) := by
  have hl2 : lookup s.evictCountUp.hashmap (s.evictCountUp.hasher k % 2 ^ 64) = i := hl
  have hg2 : s.evictCountUp.entries.Get i = .ok w := hg
  constructor
  · intro hts
    rw [CacheShard.evictStep]
    rw [hl2, if_neg hi, hg2]
    dsimp only
    rw [if_pos hts]
    exact ⟨rfl, rfl, rfl⟩
  · intro hts
    rw [CacheShard.evictStep]
    rw [hl2, if_neg hi, hg2]
    dsimp only
    rw [if_neg hts]
    exact ⟨rfl, rfl, rfl, rfl⟩

theorem c6_witness :
    lookup c6Shard.hashmap (c6Shard.hasher [7] % 2 ^ 64) = 1 ∧
    c6Shard.entries.Get 1 = .ok (wrapEntry 12 0 [7] [1, 2]) ∧
    readTimestampFromEntry (wrapEntry 12 0 [7] [1, 2]) = 12 ∧
    (CacheShard.evictStep 12 c6Shard [7]).hashmap =
      eraseMap (c6Shard.hasher [7] % 2 ^ 64) c6Shard.hashmap ∧
    (CacheShard.evictStep 12 c6Shard [7]).removedLog =
      c6Shard.removedLog ++ [wrapEntry 12 0 [7] [1, 2]] := by
  have hmain := (c6_evict_cohort_expiry_guard c6Shard [7] 12 1
    (wrapEntry 12 0 [7] [1, 2]) (by decide) (by decide) (by rfl)).1 (by decide)
  exact ⟨by decide, by rfl, by decide, hmain.1, hmain.2.1⟩

theorem eq_of_index_eq {l : List QSlot}
    (hp : l.Pairwise (fun a b => a.index < b.index)) {a b : QSlot}
    (ha : a ∈ l) (hb : b ∈ l) (hi : a.index = b.index) : a = b := by
  have h1 := find?_pairwise_mem hp ha
  have h2 := find?_pairwise_mem hp hb
  rw [hi] at h1
  rw [h1] at h2
  injection h2

theorem Get_of_mem_alive {q : BytesQueue} {P : QSlot}
    (hp : q.slots.Pairwise (fun a b => a.index < b.index))
    (hm : P ∈ q.slots) (ha : P.alive = true) : q.Get P.index = .ok P.data := by
  rw [BytesQueue.Get, find?_pairwise_mem hp hm]
  simp [ha]

theorem pairwise_map_index {l : List QSlot} {f : QSlot → QSlot}
    (hf : ∀ sl, (f sl).index = sl.index)
    (hp : l.Pairwise (fun a b => a.index < b.index)) :
    (l.map f).Pairwise (fun a b => a.index < b.index) := by
  refine List.Pairwise.map f ?_ hp
  intro a b hab
  rw [hf a, hf b]
  exact hab

theorem resetKey_index_fn (i : Nat) (sl : QSlot) :
    (if sl.index == i then { sl with data := resetKeyData sl.data }
      else sl).index = sl.index := by
  split <;> rfl

theorem Delete_index_fn (i : Nat) (sl : QSlot) :
    (if sl.index == i then
        { sl with alive := false, data := resetKeyData sl.data }
      else sl).index = sl.index := by
  split <;> rfl

theorem qwf_resetKey {q : BytesQueue} (i : Nat) (hq : QWF q) : QWF (q.resetKey i) := by
  obtain ⟨hb, hp, ht, hc, hm⟩ := hq
  refine ⟨?_, ?_, ht, hc, hm⟩
  · intro sl hmem
    obtain ⟨sl0, hm0, hi0, -⟩ := mem_resetKey hmem
    rw [hi0]
    exact hb sl0 hm0
  · exact pairwise_map_index (fun sl => resetKey_index_fn i sl) hp

theorem qwf_Delete {q : BytesQueue} (i : Nat) (hq : QWF q) : QWF (q.Delete i) := by
  obtain ⟨hb, hp, ht, hc, hm⟩ := hq
  refine ⟨?_, ?_, ht, hc, hm⟩
  · intro sl hmem
    obtain ⟨sl0, hm0, hi0, -⟩ := mem_Delete hmem
    rw [hi0]
    exact hb sl0 hm0
  · exact pairwise_map_index (fun sl => Delete_index_fn i sl) hp

theorem qwf_Push {q : BytesQueue} {p : List Nat} {i : Nat} {q' : BytesQueue}
    (hq : QWF q) (h : q.Push p = .ok (i, q')) : QWF q' := by
  obtain ⟨hb, hp, ht, hc, hm⟩ := hq
  obtain ⟨hi, hslots, htail2, hmaxc, hle, hcapb⟩ := Push_ok h
  refine ⟨?_, ?_, hle, by omega, by omega⟩
  · intro sl hmem
    rw [hslots] at hmem
    rcases List.mem_append.mp hmem with hold | hnew
    · have := hb sl hold
      omega
    · rcases List.mem_singleton.mp hnew with rfl
      simp only []
      omega
  · rw [hslots, List.pairwise_append]
    refine ⟨hp, List.pairwise_singleton _ _, ?_⟩
    intro a ha b hb2
    rcases List.mem_singleton.mp hb2 with rfl
    have := hb a ha
    simp only []
    omega

theorem qwf_Pop {q : BytesQueue} {d : List Nat} {q' : BytesQueue}
    (hq : QWF q) (h : q.Pop = .ok (d, q')) : QWF q' := by
  obtain ⟨hb, hp, ht, hc, hm⟩ := hq
  rcases hdw : q.slots.dropWhile (fun sl => !sl.alive) with _ | ⟨P, rest⟩
  · rw [BytesQueue.Pop, hdw] at h
    exact absurd h (by simp)
  · rw [BytesQueue.Pop, hdw] at h
    injection h with h
    injection h with h1 h2
    subst h2
    have hsub : rest.Sublist q.slots := by
      have hsuf : (P :: rest).IsSuffix q.slots := by
        rw [← hdw]
        exact List.dropWhile_suffix _
      exact List.Sublist.trans (List.sublist_cons_self _ _) hsuf.sublist
    refine ⟨?_, hp.sublist hsub, ht, hc, hm⟩
    intro sl hmem
    exact hb sl (hsub.mem hmem)

theorem pairwise_keys_insert (h v : Nat) {m : List (Nat × Nat)}
    (hp : m.Pairwise (fun a b => a.1 ≠ b.1)) :
    (insertMap h v m).Pairwise (fun a b => a.1 ≠ b.1) := by
  rw [insertMap]
  refine List.pairwise_cons.mpr ⟨?_, hp.sublist (List.filter_sublist _)⟩
  intro b hb
  have hbf := List.of_mem_filter hb
  simp only [bne_iff_ne, ne_eq, decide_eq_true_eq] at hbf
  exact fun hc => hbf (by rw [← hc])

theorem insertMap_erase (h v : Nat) (m : List (Nat × Nat)) :
    insertMap h v (eraseMap h m) = insertMap h v m := by
  rw [insertMap, insertMap, eraseMap, List.filter_filter]
  congr 1
  apply List.filter_congr
  intro x hx
  simp [Bool.and_self]

theorem mem_map_self {l : List QSlot} {f : QSlot → QSlot} {S : QSlot}
    (hm : S ∈ l) (hf : f S = S) : S ∈ l.map f := by
  have hmm := List.mem_map_of_mem f hm
  rwa [hf] at hmm

theorem mem_kill_of_ne {q : BytesQueue} {i : Nat} {S : QSlot}
    (hm : S ∈ q.slots) (hne : S.index ≠ i) :
    S ∈ ((q.resetKey i).Delete i).slots := by
  have h1 : S ∈ (q.resetKey i).slots := by
    rw [BytesQueue.resetKey]
    exact mem_map_self hm (by simp [hne])
  rw [BytesQueue.Delete]
  exact mem_map_self h1 (by simp [hne])

theorem mem_kill_alive {q : BytesQueue} {i : Nat} {sl : QSlot}
    (hm : sl ∈ ((q.resetKey i).Delete i).slots) (ha : sl.alive = true) :
    sl ∈ q.slots ∧ sl.index ≠ i := by
  rw [BytesQueue.Delete] at hm
  simp only [List.mem_map] at hm
  obtain ⟨sl1, hm1, heq1⟩ := hm
  rw [BytesQueue.resetKey] at hm1
  simp only [List.mem_map] at hm1
  obtain ⟨sl0, hm0, heq0⟩ := hm1
  by_cases hi0 : sl0.index = i
  · exfalso
    subst heq1
    subst heq0
    simp only [hi0, beq_self_eq_true, if_true] at ha
    simp at ha
  · rw [if_neg (by simp [hi0])] at heq0
    subst heq0
    rw [if_neg (by simp [hi0])] at heq1
    subst heq1
    exact ⟨hm0, hi0⟩

theorem inv_insert_push {hm : List (Nat × Nat)} {q : BytesQueue} {ex h : Nat}
    {k v : List Nat} {i2 : Nat} {q2 : BytesQueue}
    (hinv : ShardInvHE hm q) (hl0 : lookup hm h = 0) (hh : h < 2 ^ 64)
    (hpe : q.Push (wrapEntry ex h k v) = .ok (i2, q2)) :
    ShardInvHE (insertMap h i2 hm) q2 := by
  obtain ⟨hqwf, hpk, hfwd, hbwd⟩ := hinv
  obtain ⟨hi, hslots, htail2, hmaxc, hle, hcapb⟩ := Push_ok hpe
  have hhash : readHashFromEntry (wrapEntry ex h k v) = h := by
    rw [readHashFromEntry_wrap]
    exact Nat.mod_eq_of_lt hh
  refine ⟨qwf_Push hqwf hpe, pairwise_keys_insert h i2 hpk, ?_, ?_⟩
  · intro h2 hne
    by_cases hcase : h2 = h
    · subst hcase
      rw [lookup_insert_self] at hne ⊢
      refine ⟨⟨q.tail + 1, wrapEntry ex h2 k v, true⟩, ?_, by rw [hi], rfl, hhash⟩
      rw [hslots]
      exact List.mem_append_right _ (by simp)
    · rw [lookup_insert_ne h i2 h2 hm hcase] at hne ⊢
      obtain ⟨S, hSm, hSi, hSa, hSh⟩ := hfwd h2 hne
      exact ⟨S, by rw [hslots]; exact List.mem_append_left _ hSm, hSi, hSa, hSh⟩
  · intro sl hmem ha
    rw [hslots] at hmem
    rcases List.mem_append.mp hmem with hold | hnew
    · have hb2 := hbwd sl hold ha
      by_cases hcase : readHashFromEntry sl.data = h
      · exfalso
        rw [hcase, hl0] at hb2
        have := (hqwf.1 sl hold).1
        omega
      · rw [lookup_insert_ne h i2 _ hm hcase]
        exact hb2
    · rcases List.mem_singleton.mp hnew with rfl
      simp only [hhash, lookup_insert_self]
      rw [hi]

theorem inv_erase_kill {hm : List (Nat × Nat)} {q : BytesQueue} {h0 : Nat}
    (hinv : ShardInvHE hm q) (hl : lookup hm h0 ≠ 0) :
    ShardInvHE (eraseMap h0 hm)
      ((q.resetKey (lookup hm h0)).Delete (lookup hm h0)) := by
  obtain ⟨hqwf, hpk, hfwd, hbwd⟩ := hinv
  obtain ⟨P, hPm, hPi, hPa, hPh⟩ := hfwd h0 hl
  refine ⟨qwf_Delete _ (qwf_resetKey _ hqwf),
    hpk.sublist (List.filter_sublist _), ?_, ?_⟩
  · intro h2 hne
    by_cases hcase : h2 = h0
    · subst hcase
      rw [lookup_erase_self] at hne
      exact absurd rfl hne
    · rw [lookup_erase_ne h0 h2 hm hcase] at hne ⊢
      obtain ⟨S, hSm, hSi, hSa, hSh⟩ := hfwd h2 hne
      have hSne : S.index ≠ lookup hm h0 := by
        intro hc
        have hSP : S = P := eq_of_index_eq hqwf.2.1 hSm hPm (by rw [hc, hPi])
        rw [hSP, hPh] at hSh
        exact hcase hSh.symm
      exact ⟨S, mem_kill_of_ne hSm hSne, hSi, hSa, hSh⟩
  · intro sl hmem ha
    obtain ⟨hslm, hslne⟩ := mem_kill_alive hmem ha
    have hb2 := hbwd sl hslm ha
    by_cases hcase : readHashFromEntry sl.data = h0
    · exfalso
      rw [hcase] at hb2
      exact hslne hb2.symm
    · rw [lookup_erase_ne h0 _ hm hcase]
      exact hb2

theorem dropWhile_head_false {p : QSlot → Bool} {l : List QSlot} {a : QSlot}
    {t : List QSlot} (hd : l.dropWhile p = a :: t) : p a = false := by
  induction l with
  | nil => simp [List.dropWhile] at hd
  | cons x xs ih =>
    rw [List.dropWhile_cons] at hd
    split at hd
    · exact ih hd
    · injection hd with h1 h2
      subst h1
      rename_i hpx
      simp at hpx
      exact hpx

theorem inv_pop {hm : List (Nat × Nat)} {q : BytesQueue} {d : List Nat}
    {q2 : BytesQueue} (hinv : ShardInvHE hm q) (hpop : q.Pop = .ok (d, q2)) :
    ShardInvHE (eraseMap (readHashFromEntry d) hm) q2 := by
  obtain ⟨hqwf, hpk, hfwd, hbwd⟩ := hinv
  rcases hdw : q.slots.dropWhile (fun sl => !sl.alive) with _ | ⟨P, rest⟩
  · rw [BytesQueue.Pop, hdw] at hpop
    exact absurd hpop (by simp)
  · rw [BytesQueue.Pop, hdw] at hpop
    injection hpop with hpop
    injection hpop with h1 h2
    subst h2
    subst h1
    have hPalive : P.alive = true := by
      have := dropWhile_head_false hdw
      simpa using this
    have hsplit : q.slots.takeWhile (fun sl => !sl.alive) ++ (P :: rest) = q.slots := by
      rw [← hdw]
      exact List.takeWhile_append_dropWhile _ _
    have hPq : P ∈ q.slots := by
      rw [← hsplit]
      exact List.mem_append_right _ (by simp)
    have hrestq : ∀ sl ∈ rest, sl ∈ q.slots := by
      intro sl hsl
      rw [← hsplit]
      exact List.mem_append_right _ (List.mem_cons_of_mem _ hsl)
    refine ⟨qwf_Pop hqwf (by rw [BytesQueue.Pop, hdw]),
      hpk.sublist (List.filter_sublist _), ?_, ?_⟩
    · intro h2 hne
      by_cases hcase : h2 = readHashFromEntry P.data
      · subst hcase
        rw [lookup_erase_self] at hne
        exact absurd rfl hne
      · rw [lookup_erase_ne _ h2 hm hcase] at hne ⊢
        obtain ⟨S, hSm, hSi, hSa, hSh⟩ := hfwd h2 hne
        rw [← hsplit] at hSm
        rcases List.mem_append.mp hSm with hpre | hPr
        · exfalso
          have := List.mem_takeWhile_imp hpre
          simp at this
          rw [this] at hSa
          cases hSa
        · rcases List.mem_cons.mp hPr with rfl | hSrest
          · exact absurd hSh.symm hcase
          · exact ⟨S, hSrest, hSi, hSa, hSh⟩
    · intro sl hmem ha
      have hslq := hrestq sl hmem
      have hb2 := hbwd sl hslq ha
      by_cases hcase : readHashFromEntry sl.data = readHashFromEntry P.data
      · exfalso
        have hbP := hbwd P hPq hPalive
        have hieq : sl.index = P.index := by
          rw [← hb2, ← hbP, hcase]
        have hslP : sl = P := eq_of_index_eq hqwf.2.1 hslq hPq hieq
        have hpw := hqwf.2.1
        rw [← hsplit] at hpw
        have hpw2 := (List.pairwise_append.mp hpw).2.1
        have hlt := (List.pairwise_cons.mp hpw2).1 sl hmem
        rw [hslP] at hlt
        omega
      · rw [lookup_erase_ne _ _ hm hcase]
        exact hb2

theorem setRemovePrev_eq_zero {s : CacheShard} {k : List Nat} {h : Nat}
    (hl : lookup s.hashmap h = 0) : s.setRemovePrev k h = s := by
  rw [CacheShard.setRemovePrev]
  simp [hl]

theorem setRemovePrev_eq_kill {s : CacheShard} {k : List Nat} {h : Nat}
    {P : List Nat} (hl : lookup s.hashmap h ≠ 0)
    (hget : s.entries.Get (lookup s.hashmap h) = .ok P) :
    s.setRemovePrev k h =
      { s with ttlTable := ttlRemove (readTimestampFromEntry P) k s.ttlTable,
               entries := (s.entries.resetKey (lookup s.hashmap h)).Delete
                 (lookup s.hashmap h) } := by
  rw [CacheShard.setRemovePrev]
  rw [if_pos hl, hget]

theorem inv_set_ok {s : CacheShard} {k : List Nat} {h : Nat} {v : List Nat}
    {d now : Nat} (hh : h < 2 ^ 64) (hpush : s.setPushOk k h v d now)
    (hinv : ShardInv s) : ShardInv (s.set k h v d now).1 := by
  have hqwf := hinv.1
  have hIdx : ∀ sl ∈ s.entries.slots, sl.index ≤ s.entries.tail :=
    fun sl hm => (hqwf.1 sl hm).2
  obtain ⟨q', hpe, hmap, hent, hexp, herr, hget, hlogx, httl⟩ :=
    set_ok_spec hpush hqwf.2.2.2.1 hqwf.2.2.2.2 hIdx
  rw [ShardInv, hmap, hent]
  by_cases hl0 : lookup s.hashmap h = 0
  · rw [setRemovePrev_eq_zero (k := k) hl0] at hpe
    exact inv_insert_push hinv hl0 hh hpe
  · obtain ⟨P, hPm, hPi, hPa, hPh⟩ := hinv.2.2.1 h hl0
    have hgetP : s.entries.Get (lookup s.hashmap h) = .ok P.data := by
      rw [← hPi]
      exact Get_of_mem_alive hqwf.2.1 hPm hPa
    rw [setRemovePrev_eq_kill (k := k) hl0 hgetP] at hpe
    have hkill := inv_erase_kill hinv hl0
    have hres := inv_insert_push hkill (lookup_erase_self h s.hashmap) hh hpe
    rw [insertMap_erase] at hres
    exact hres

theorem inv_del {s : CacheShard} (k : List Nat) (h : Nat) (hinv : ShardInv s) :
    ShardInv (s.del k h).1 := by
  by_cases hl : lookup s.hashmap h = 0
  · have hred : (s.del k h).1 = s.delmiss := by
      rw [CacheShard.del]
      simp [hl]
    rw [hred]
    exact hinv
  · obtain ⟨P, hPm, hPi, hPa, hPh⟩ := hinv.2.2.1 h hl
    have hgetP : s.entries.Get (lookup s.hashmap h) = .ok P.data := by
      rw [← hPi]
      exact Get_of_mem_alive hinv.1.2.1 hPm hPa
    have hred : (s.del k h).1.hashmap = eraseMap h s.hashmap ∧
        (s.del k h).1.entries = (s.entries.resetKey (lookup s.hashmap h)).Delete
          (lookup s.hashmap h) := by
      rw [CacheShard.del]
      rw [if_neg hl, hgetP]
      exact ⟨rfl, rfl⟩
    rw [ShardInv, hred.1, hred.2]
    exact inv_erase_kill hinv hl

theorem inv_evictStep {s : CacheShard} (ts : Nat) (k : List Nat)
    (hinv : ShardInv s) : ShardInv (CacheShard.evictStep ts s k) := by
  by_cases hl : lookup s.hashmap (s.hasher k % 2 ^ 64) = 0
  · have hl2 : lookup s.evictCountUp.hashmap
        (s.evictCountUp.hasher k % 2 ^ 64) = 0 := hl
    have hred : CacheShard.evictStep ts s k = s.evictCountUp.delmiss := by
      rw [CacheShard.evictStep]
      rw [hl2, if_pos rfl]
    rw [hred]
    exact hinv
  · obtain ⟨P, hPm, hPi, hPa, hPh⟩ := hinv.2.2.1 _ hl
    have hgetP : s.entries.Get (lookup s.hashmap (s.hasher k % 2 ^ 64)) =
        .ok P.data := by
      rw [← hPi]
      exact Get_of_mem_alive hinv.1.2.1 hPm hPa
    have hl2 : lookup s.evictCountUp.hashmap (s.evictCountUp.hasher k % 2 ^ 64) =
        lookup s.hashmap (s.hasher k % 2 ^ 64) := rfl
    have hget2 : s.evictCountUp.entries.Get
        (lookup s.hashmap (s.hasher k % 2 ^ 64)) = .ok P.data := hgetP
    by_cases hts : readTimestampFromEntry P.data = ts
    · have hred : (CacheShard.evictStep ts s k).hashmap =
          eraseMap (s.hasher k % 2 ^ 64) s.hashmap ∧
          (CacheShard.evictStep ts s k).entries =
            (s.entries.resetKey (lookup s.hashmap (s.hasher k % 2 ^ 64))).Delete
              (lookup s.hashmap (s.hasher k % 2 ^ 64)) := by
        rw [CacheShard.evictStep]
        rw [hl2, if_neg hl, hget2]
        dsimp only
        rw [if_pos hts]
        exact ⟨rfl, rfl⟩
      rw [ShardInv, hred.1, hred.2]
      exact inv_erase_kill hinv hl
    · have hred : CacheShard.evictStep ts s k = s.evictCountUp := by
        rw [CacheShard.evictStep]
        rw [hl2, if_neg hl, hget2]
        dsimp only
        rw [if_neg hts]
      rw [hred]
      exact hinv

theorem inv_evictDel (ts : Nat) (keys : List (List Nat)) :
    ∀ s : CacheShard, ShardInv s → ShardInv (s.evictDel ts keys) := by
  induction keys with
  | nil => exact fun s h => h
  | cons a t ih =>
    intro s h
    rw [CacheShard.evictDel, List.foldl_cons]
    exact ih _ (inv_evictStep ts a h)

theorem inv_removeOldest {s : CacheShard} (hinv : ShardInv s) :
    ShardInv s.removeOldestEntry.1 := by
  rcases hpop : s.entries.Pop with e | ⟨oldest, q2⟩
  · have hred : s.removeOldestEntry = (s, some e) := by
      rw [CacheShard.removeOldestEntry, hpop]
    rw [hred]
    exact hinv
  · have hred : s.removeOldestEntry.1.hashmap =
        eraseMap (readHashFromEntry oldest) s.hashmap ∧
        s.removeOldestEntry.1.entries = q2 := by
      rw [CacheShard.removeOldestEntry, hpop]
      exact ⟨rfl, rfl⟩
    rw [ShardInv, hred.1, hred.2]
    exact inv_pop hinv hpop

theorem inv_stepOk {s s' : CacheShard} (hstep : ShardStepOk s s')
    (hinv : ShardInv s) : ShardInv s' := by
  cases hstep with
  | set k h v d now hh hpush => exact inv_set_ok hh hpush hinv
  | del k h hh => exact inv_del k h hinv
  | evictDel ts keys => exact inv_evictDel ts keys _ hinv
  | removeOldest => exact inv_removeOldest hinv

theorem inv_init (cap0 maxCap : Nat) (hasher : List Nat → Nat)
    (hcap : cap0 < 2 ^ 32) (hmax : maxCap < 2 ^ 32) :
    ShardInv (initShard cap0 maxCap hasher) := by
  refine ⟨⟨?_, ?_, ?_, hcap, hmax⟩, ?_, ?_, ?_⟩
  · intro sl hm
    cases hm
  · exact List.Pairwise.nil
  · exact Nat.zero_le _
  · exact List.Pairwise.nil
  · intro h hne
    exact absurd rfl hne
  · intro sl hm
    cases hm

theorem inv_of_reachesOk {cap0 maxCap : Nat} {hasher : List Nat → Nat}
    {s : CacheShard} (hcap : cap0 < 2 ^ 32) (hmax : maxCap < 2 ^ 32)
    (hr : ReachesOk (initShard cap0 maxCap hasher) s) : ShardInv s := by
  induction hr with
  | refl => exact inv_init cap0 maxCap hasher hcap hmax
  | tail hr hstep ih => exact inv_stepOk hstep ih

/-- Claim C5 (amended): in every shard state reachable from a fresh shard by
sequences of `set`, `del`, `evictDel` and `removeOldestEntry` in which each
`set`'s queue push succeeds, the hashmap has at most one binding per hash,
and `hashmap[h] = i` with `i ≠ 0` holds exactly when the queue slot at index
`i` is live and carries hash `h`.  The amendment restricts the claim to
push-successful histories: a `set` whose push fails (QueueFull) has already
tombstoned the previous entry for the hash but leaves the hashmap pointing
at the dead index, falsifying the claimed iff (see the counterexample). -/
theorem c5_single_occupancy_amended (cap0 maxCap : Nat)
    (hasher : List Nat → Nat) (s : CacheShard)
    (hcap : cap0 < 2 ^ 32) (hmax : maxCap < 2 ^ 32)
    (hr : ReachesOk (initShard cap0 maxCap hasher) s) :
    s.hashmap.Pairwise (fun a b => a.1 ≠ b.1) ∧
    (∀ h i, (lookup s.hashmap h = i ∧ i ≠ 0) ↔
      (∃ sl ∈ s.entries.slots, sl.index = i ∧ sl.alive = true ∧
        readHashFromEntry sl.data = h)) := by
  obtain ⟨hqwf, hpk, hfwd, hbwd⟩ := inv_of_reachesOk hcap hmax hr
  refine ⟨hpk, ?_⟩
  intro h i
  constructor
  · rintro ⟨hli, hi⟩
    obtain ⟨S, hSm, hSi, hSa, hSh⟩ := hfwd h (by rw [hli]; exact hi)
    rw [hli] at hSi
    exact ⟨S, hSm, hSi, hSa, hSh⟩
  · rintro ⟨S, hSm, hSi, hSa, hSh⟩
    have hb2 := hbwd S hSm hSa
    rw [hSh] at hb2
    have h1 := (hqwf.1 S hSm).1
    exact ⟨by rw [hb2, hSi], by omega⟩

theorem c5_witness :
    (100 : Nat) < 2 ^ 32 ∧ (200 : Nat) < 2 ^ 32 ∧
    (c5ShardOk.hashmap.Pairwise (fun a b => a.1 ≠ b.1) ∧
     ∀ h i, (lookup c5ShardOk.hashmap h = i ∧ i ≠ 0) ↔
       (∃ sl ∈ c5ShardOk.entries.slots, sl.index = i ∧ sl.alive = true ∧
         readHashFromEntry sl.data = h)) :=
  ⟨by decide, by decide,
    c5_single_occupancy_amended 100 200 hzero c5ShardOk (by decide) (by decide)
      (ReachesOk.tail .refl
        (ShardStepOk.set (initShard 100 200 hzero) [7] 5 [1, 2] 0 3
          (by decide) (by decide)))⟩

/-- Claim C5 counterexample: the state `c5Shard2` is reachable by two `set`
operations (the second of which hits QueueFull after tombstoning the
previous entry for hash 1), yet `hashmap[1] = 1` while the queue slot at
index 1 is dead — the claimed iff between a non-zero binding and a live
slot fails on this reachable state. -/
theorem c5_counterexample :
    ReachesAny (initShard 24 24 hzero) c5Shard2 ∧
    ¬ ((lookup c5Shard2.hashmap 1 = 1 ∧ (1 : Nat) ≠ 0) ↔
      (∃ sl ∈ c5Shard2.entries.slots, sl.index = 1 ∧ sl.alive = true ∧
        readHashFromEntry sl.data = 1)) := by
  constructor
  · exact ReachesAny.tail
      (ReachesAny.tail .refl
        (ShardStep.set (initShard 24 24 hzero) [1] 1 [2] 0 0 (by decide)))
      (ShardStep.set c5Shard1 [1] 1 [3] 0 0 (by decide))
  · decide

/-- Claim C7: while a remote node is in the Handshake state,
`queueInboundMessage` never places a message whose code is neither VERIFY nor
VERIFY_OK onto the inbound queue; such a message is dropped and counted in
the `dropedMsg` metric, and nothing else about the node changes. -/
theorem c7_handshake_inbound_gate (r : RemoteNode) (msg : NodeWireMessage)
    (hs : r.state = .nodeStateHandshake)
    (hc1 : msg.code ≠ .msgVERIFY) (hc2 : msg.code ≠ .msgVERIFYOK) :
    (r.queueInboundMessage msg).inboundMsgQueue = r.inboundMsgQueue ∧
    (r.queueInboundMessage msg).dropedMsg = r.dropedMsg + 1 ∧
    (r.queueInboundMessage msg).state = r.state ∧
    (r.queueInboundMessage msg).outboundMsgQueue = r.outboundMsgQueue ∧
    (r.queueInboundMessage msg).pendingGet = r.pendingGet := by
  rw [RemoteNode.queueInboundMessage, if_pos ⟨hs, hc1, hc2⟩]
  exact ⟨rfl, rfl, rfl, rfl, rfl⟩

theorem c7_witness :
    rnHandshake.state = .nodeStateHandshake ∧
    MsgCode.msgPING ≠ MsgCode.msgVERIFY ∧
    (rnHandshake.queueInboundMessage ⟨.msgPING, []⟩).inboundMsgQueue =
      rnHandshake.inboundMsgQueue ∧
    (rnHandshake.queueInboundMessage ⟨.msgPING, []⟩).dropedMsg =
      rnHandshake.dropedMsg + 1 := by
  have hmain := c7_handshake_inbound_gate rnHandshake ⟨.msgPING, []⟩
    (by decide) (by decide) (by decide)
  exact ⟨by decide, by decide, hmain.1, hmain.2.1⟩

/-- Claim C10: if a remote node's state is Disconnected, `getData` returns
immediately: the pending-GET map, the queues and the state are all
unchanged and no GET_REQ message is sent. -/
theorem c10_getData_disconnected_noop (r : RemoteNode) (reqData : GetRequestData)
    (hs : r.state = .nodeStateDisconnected) :
    r.getData reqData = r := by
  rw [RemoteNode.getData, if_pos hs]

theorem c10_witness :
    rnDisconnected.state = .nodeStateDisconnected ∧
    rnDisconnected.getData ⟨"k2", "xy"⟩ = rnDisconnected :=
  ⟨by decide, c10_getData_disconnected_noop rnDisconnected ⟨"k2", "xy"⟩ (by decide)⟩

theorem waitCountAux_all_handshake {obs : Nat → NodeState} {fuel c : Nat}
    (h : ∀ n, c ≤ n → n < c + fuel → obs n = .nodeStateHandshake) :
    waitCountAux obs fuel c = c + fuel := by
  induction fuel generalizing c with
  | zero => simp [waitCountAux]
  | succ fuel ih =>
    rw [waitCountAux]
    rw [if_pos (h c le_rfl (by omega))]
    rw [ih (fun n h1 h2 => h n (by omega) (by omega))]
    omega

theorem waitCountAux_stops {obs : Nat → NodeState} {fuel c m : Nat}
    (hcm : c ≤ m) (hm : m < c + fuel) (hobs : obs m ≠ .nodeStateHandshake)
    (hmin : ∀ n, c ≤ n → n < m → obs n = .nodeStateHandshake) :
    waitCountAux obs fuel c = m := by
  induction fuel generalizing c with
  | zero => omega
  | succ fuel ih =>
    rw [waitCountAux]
    by_cases hc : c = m
    · subst hc
      rw [if_neg hobs]
    · rw [if_pos (hmin c le_rfl (by omega))]
      exact ih (by omega) (by omega) (fun n h1 h2 => hmin n (by omega) h2)

theorem disconnected_absorb {obs : Nat → NodeState}
    (habs : ∀ n, obs n = .nodeStateDisconnected →
      obs (n + 1) = .nodeStateDisconnected)
    {m n : Nat} (hmn : m ≤ n) (hm : obs m = .nodeStateDisconnected) :
    obs n = .nodeStateDisconnected := by
  induction n, hmn using Nat.le_induction with
  | base => exact hm
  | succ n hn ih => exact habs n ih

/-- Claim C8: after VERIFY_OK the background waiter polls the node state once
per second with a five-poll budget.  Provided the observed states range over
Handshake, Connected and Disconnected with Disconnected absorbing (the only
states a node can show after the handshake begins, and Disconnected is
terminal), the waiter enqueues exactly one SYNC_REQ iff the peer was
configured with `Sync = true` and the state became Connected within the
budget; otherwise (state stayed in Handshake past the budget, the node
disconnected, or `Sync = false`) the node is returned untouched — in
particular the state is never changed and the peer is not disconnected. -/
theorem c8_verify_ok_sync_window (r : RemoteNode) (obs : Nat → NodeState)
    (hrange : ∀ n, obs n = .nodeStateHandshake ∨ obs n = .nodeStateConnected ∨
      obs n = .nodeStateDisconnected)
    (habs : ∀ n, obs n = .nodeStateDisconnected →
      obs (n + 1) = .nodeStateDisconnected) :
    ((r.sync = true ∧ ∃ n, n < 5 ∧ obs n = .nodeStateConnected) →
      r.handleVerifyOKWaiter obs =
        { r with outboundMsgQueue := r.outboundMsgQueue ++ [NodeMessage.syncReq] }) ∧
    (¬ (r.sync = true ∧ ∃ n, n < 5 ∧ obs n = .nodeStateConnected) →
      r.handleVerifyOKWaiter obs = r) := by
  by_cases hex : ∃ n, n < 5 ∧ obs n ≠ .nodeStateHandshake
  · have hmlt := (Nat.find_spec hex).1
    have hmns := (Nat.find_spec hex).2
    have hmin : ∀ n, 0 ≤ n → n < Nat.find hex → obs n = .nodeStateHandshake := by
      intro n h0 hn
      by_contra hc
      exact Nat.lt_irrefl _ (Nat.lt_of_le_of_lt
        (Nat.find_min' hex ⟨by omega, hc⟩) hn)
    have hwc : waitCountAux obs 5 0 = Nat.find hex :=
      waitCountAux_stops (Nat.zero_le _) (by omega) hmns hmin
    rcases hrange (Nat.find hex) with hh | hco | hdi
    · exact absurd hh hmns
    · constructor
      · rintro ⟨hsync, -⟩
        rw [RemoteNode.handleVerifyOKWaiter, hwc,
          if_pos ⟨hmlt, hsync, by rw [hco]; intro hc; cases hc⟩]
      · intro hneg
        have hsync : r.sync ≠ true := by
          intro hsy
          exact hneg ⟨hsy, Nat.find hex, hmlt, hco⟩
        rw [RemoteNode.handleVerifyOKWaiter, hwc]
        rw [if_neg (by intro hc; exact hsync hc.2.1)]
    · have hnocon : ¬ ∃ n, n < 5 ∧ obs n = .nodeStateConnected := by
        rintro ⟨n, hn5, hnc⟩
        rcases Nat.lt_or_ge n (Nat.find hex) with hlt | hge
        · rw [hmin n (Nat.zero_le _) hlt] at hnc
          cases hnc
        · have := disconnected_absorb habs hge hdi
          rw [this] at hnc
          cases hnc
      constructor
      · rintro ⟨-, hcon⟩
        exact absurd hcon hnocon
      · intro hneg
        rw [RemoteNode.handleVerifyOKWaiter, hwc]
        rw [if_neg (by rintro ⟨-, -, hne⟩; exact hne hdi)]
  · push_neg at hex
    have hall : ∀ n, 0 ≤ n → n < 0 + 5 → obs n = .nodeStateHandshake := by
      intro n h0 hn
      exact hex n (by omega)
    have hwc : waitCountAux obs 5 0 = 5 := by
      have := waitCountAux_all_handshake hall
      omega
    have hnocon : ¬ ∃ n, n < 5 ∧ obs n = .nodeStateConnected := by
      rintro ⟨n, hn5, hnc⟩
      rw [hex n hn5] at hnc
      cases hnc
    constructor
    · rintro ⟨-, hcon⟩
      exact absurd hcon hnocon
    · intro hneg
      rw [RemoteNode.handleVerifyOKWaiter, hwc]
      rw [if_neg (by rintro ⟨h5, -⟩; omega)]

theorem c8_witness :
    (∀ n, obsConnected1 n = .nodeStateHandshake ∨
      obsConnected1 n = .nodeStateConnected ∨
      obsConnected1 n = .nodeStateDisconnected) ∧
    (∀ n, obsConnected1 n = .nodeStateDisconnected →
      obsConnected1 (n + 1) = .nodeStateDisconnected) ∧
    rnHandshake.handleVerifyOKWaiter obsConnected1 =
      { rnHandshake with outboundMsgQueue := [NodeMessage.syncReq] } := by
  have hrange : ∀ n, obsConnected1 n = .nodeStateHandshake ∨
      obsConnected1 n = .nodeStateConnected ∨
      obsConnected1 n = .nodeStateDisconnected := by
    intro n
    by_cases hn : n = 0 <;> simp [obsConnected1, hn]
  have habs : ∀ n, obsConnected1 n = .nodeStateDisconnected →
      obsConnected1 (n + 1) = .nodeStateDisconnected := by
    intro n hn
    exfalso
    by_cases h0 : n = 0 <;> simp [obsConnected1, h0] at hn
  have hmain := (c8_verify_ok_sync_window rnHandshake obsConnected1 hrange habs).1
    ⟨rfl, 1, by omega, by simp [obsConnected1]⟩
  exact ⟨hrange, habs, hmain⟩
